import Mathlib

/-!
Verification development for the RSS/Atom aggregation worker.

The definitions below are a shallow embedding of the repository's JavaScript
source.  Strings are modelled as `List Char`; JavaScript runtime values that
can reach the functions under scrutiny are modelled by `JsValue`; fallible
JavaScript code is modelled with `Option`/`Except`.

The embedding of the WHATWG `URL` platform builtin (used by
`lib/url-normalize.js`) covers the fragment of the URL standard that
`http`/`https` URLs with ASCII text exercise: scheme/host/port/path/query/
fragment splitting, host lowercasing with the forbidden-host-code-point
check, default-port stripping, decimal port parsing, percent-encoding of the
path and query with the path/query percent-encode sets, and
`application/x-www-form-urlencoded` parsing for `searchParams` (`+` to
space, percent-decoding, `&`/`=` splitting, empty segments skipped).
Deliberately outside the modelled fragment (all documented at the relevant
definition): non-ASCII input (IDNA/UTF-8), userinfo (`@`), IPv6 hosts,
backslash-as-slash and dot-segment path normalisation, and NFC
normalisation (the identity on the ASCII fragment).  `localeCompare` is
modelled as code-unit comparison, which agrees with it on the lower-case
ASCII parameter keys that occur here.
-/

/-- A JavaScript runtime value, as far as the functions under verification
can observe one: `normalizeUrl` distinguishes only strings (by `typeof`),
falsy values, and everything else. -/
inductive JsValue where
  | nullV : JsValue
  | undefV : JsValue
  | boolV : Bool → JsValue
  | numV : Int → JsValue
  | strV : List Char → JsValue
  | objV : JsValue
deriving DecidableEq, Repr

/-- ASCII lower-casing of one character, the effect of
`String.prototype.toLowerCase` on the ASCII range. -/
def asciiLower (c : Char) : Char :=
  if 'A' ≤ c ∧ c ≤ 'Z' then Char.ofNat (c.toNat + 32) else c

/-- Whitespace characters removed by `String.prototype.trim` (the ASCII
ones; the model covers ASCII input). -/
def isWsChar (c : Char) : Bool :=
  c = ' ' ∨ c = '\t' ∨ c = '\n' ∨ c = '\r' ∨ c.toNat = 11 ∨ c.toNat = 12

/-- The effect of `rawUrl.trim()`: drop leading and trailing whitespace. -/
def jsTrim (l : List Char) : List Char :=
  ((l.dropWhile isWsChar).reverse.dropWhile isWsChar).reverse

/-- The effect of `.normalize("NFC")`.  NFC normalisation is the identity on
the ASCII strings the model covers. -/
def nfcModel (l : List Char) : List Char := l

/-- Case-insensitive ASCII prefix test (the `i` flag of the scheme regex). -/
def hasPrefixCI (p : List Char) (l : List Char) : Bool :=
  decide ((l.take p.length).map asciiLower = p)

/-- The test `/^https?:\/\//i.test(url)` from `normalizeUrl`. -/
def hasHttpScheme (l : List Char) : Bool :=
  hasPrefixCI ("http://".data) l ∨ hasPrefixCI ("https://".data) l

/-- Split a character list at the first character satisfying `p`, returning
the prefix and, when a split character exists, that character with the
remaining suffix. -/
def splitAtFirst (p : Char → Bool) : List Char → List Char × Option (Char × List Char)
  | [] => ([], none)
  | c :: cs =>
    if p c then ([], some (c, cs))
    else
      let r := splitAtFirst p cs
      (c :: r.1, r.2)

/-- Forbidden host code points of the URL standard (ASCII fragment); a host
containing one makes `new URL` throw.  Code points outside `0x21`–`0x7E`
are folded in because the model covers ASCII hosts only (real IDNA handling
of non-ASCII hosts is outside the modelled fragment). -/
def forbiddenHost (c : Char) : Bool :=
  c.toNat < 0x21 ∨ 0x7E < c.toNat ∨ c = '#' ∨ c = '%' ∨ c = '/' ∨ c = ':' ∨
    c = '<' ∨ c = '>' ∨ c = '?' ∨ c = '@' ∨ c = '[' ∨ c = '\\' ∨ c = ']' ∨
    c = '^' ∨ c = '|' ∨ c = '"'

/-- The path percent-encode set of the URL standard (C0 controls, space,
`"`, `#`, `<`, `>`, `?`, backtick, braces, and everything above `0x7E`). -/
def pathEncSet (c : Char) : Bool :=
  c.toNat < 0x21 ∨ 0x7E < c.toNat ∨ c = '"' ∨ c = '#' ∨ c = '<' ∨ c = '>' ∨
    c = '?' ∨ c.toNat = 0x60 ∨ c.toNat = 0x7b ∨ c.toNat = 0x7d

/-- The special-scheme query percent-encode set of the URL standard
(C0 controls, space, `"`, `#`, `<`, `>`, `'`, and everything above
`0x7E`). -/
def queryEncSet (c : Char) : Bool :=
  c.toNat < 0x21 ∨ 0x7E < c.toNat ∨ c = '"' ∨ c = '#' ∨ c = '<' ∨ c = '>' ∨
    c.toNat = 0x27

/-- Upper-case hexadecimal digit for a value below 16 (the URL standard
serialises percent-escapes with upper-case hex). -/
def hexDigitChar (d : Nat) : Char :=
  if d < 10 then Char.ofNat (48 + d) else Char.ofNat (55 + d)

/-- Numeric value of a hexadecimal digit character. -/
def hexVal (c : Char) : Nat :=
  if 97 ≤ c.toNat then c.toNat - 87
  else if 65 ≤ c.toNat then c.toNat - 55
  else c.toNat - 48

/-- Is `c` an ASCII hexadecimal digit? -/
def isHexDigitChar (c : Char) : Bool :=
  ('0' ≤ c ∧ c ≤ '9') ∨ ('A' ≤ c ∧ c ≤ 'F') ∨ ('a' ≤ c ∧ c ≤ 'f')

/-- Is `c` an ASCII decimal digit? -/
def isDigitChar (c : Char) : Bool :=
  '0' ≤ c ∧ c ≤ '9'

/-- Percent-encode one character against the encode set `S`. -/
def encChar (S : Char → Bool) (c : Char) : List Char :=
  if S c then ['%', hexDigitChar (c.toNat / 16), hexDigitChar (c.toNat % 16)] else [c]

/-- Percent-encode a character list against the encode set `S`. -/
def encList (S : Char → Bool) : List Char → List Char
  | [] => []
  | c :: cs => encChar S c ++ encList S cs

/-- Percent-decoding as performed by `URLSearchParams`: a `%` followed by
two hex digits becomes the denoted byte; malformed escapes pass through. -/
def pctLoop : Option (Option Char) → List Char → List Char
  | none, [] => []
  | some none, [] => ['%']
  | some (some h), [] => if h = '%' then ['%', '%'] else ['%', h]
  | none, c :: rest =>
    if c = '%' then pctLoop (some none) rest else c :: pctLoop none rest
  | some none, c :: rest => pctLoop (some (some c)) rest
  | some (some h), c :: rest =>
    if isHexDigitChar h ∧ isHexDigitChar c then
      Char.ofNat (16 * hexVal h + hexVal c) :: pctLoop none rest
    else if h = '%' then '%' :: pctLoop (some (some c)) rest
    else if c = '%' then '%' :: h :: pctLoop (some none) rest
    else '%' :: h :: c :: pctLoop none rest

/-- Percent-decoding as performed by `URLSearchParams`: a `%` followed by
two hex digits becomes the denoted byte; malformed escapes pass through and
scanning resumes at the character after the `%`. -/
def pctDecode (l : List Char) : List Char := pctLoop none l

/-- The `+`-to-space replacement of `application/x-www-form-urlencoded`. -/
def plusToSpace (l : List Char) : List Char :=
  l.map fun c => if c = '+' then ' ' else c

/-- Split a query string on `&`, keeping empty segments (they are skipped
later, as the urlencoded parser specifies). -/
def splitAmp : List Char → List (List Char)
  | [] => [[]]
  | c :: cs =>
    if c = '&' then [] :: splitAmp cs
    else
      match splitAmp cs with
      | s :: ss => (c :: s) :: ss
      | [] => [[c]]

/-- One decoded query parameter: key and value. -/
abbrev QPair := List Char × List Char

/-- The `application/x-www-form-urlencoded` parser behind
`url.searchParams`: split on `&`, skip empty segments, split each segment at
the first `=`, then `+`-to-space and percent-decode key and value. -/
def parsePairs (q : List Char) : List QPair :=
  (splitAmp q).filterMap fun seg =>
    if seg.isEmpty then none
    else
      let s := splitAtFirst (fun c => c = '=') seg
      let v := match s.2 with
        | none => []
        | some x => x.2
      some (pctDecode (plusToSpace s.1), pctDecode (plusToSpace v))

/-- The closed set of tracking parameter names removed by `normalizeUrl`. -/
def trackingParams : List (List Char) :=
  [("utm_source".data), ("utm_medium".data), ("utm_campaign".data),
   ("utm_term".data), ("utm_content".data), ("utm_id".data), ("fbclid".data),
   ("gclid".data), ("igshid".data), ("mc_cid".data), ("mc_eid".data),
   ("ref".data), ("ref_src".data), ("spm".data)]

/-- The membership test `trackingParams.has(key.toLowerCase())`. -/
def isTracking (k : List Char) : Bool :=
  trackingParams.contains (k.map asciiLower)

/-- Code-unit comparison of parameter keys.  This models the
`a[0].localeCompare(b[0])` comparator; on the lower-case ASCII keys that
occur in query strings the collation order and code-unit order agree
(documented model restriction). -/
def keyLe : List Char → List Char → Bool
  | [], _ => true
  | _ :: _, [] => false
  | a :: as, b :: bs =>
    if a.toNat < b.toNat then true
    else if b.toNat < a.toNat then false
    else keyLe as bs

/-- Insert a pair into a key-sorted list, after any pairs with an equal key
(the stable placement of a JavaScript stable sort). -/
def insertPair (p : QPair) : List QPair → List QPair
  | [] => [p]
  | q :: qs =>
    if keyLe p.1 q.1 ∧ ¬ (keyLe q.1 p.1 = true) then p :: q :: qs
    else q :: insertPair p qs

/-- Stable sort of the surviving parameters by key, the effect of
`[...qp.entries()].sort((a, b) => a[0].localeCompare(b[0]))`. -/
def sortPairs (l : List QPair) : List QPair :=
  l.foldl (fun acc p => insertPair p acc) []

/-- Rebuild the query string: `sorted.map(([k, v]) => k + "=" + v).join("&")`. -/
def joinPairs : List QPair → List Char
  | [] => []
  | [p] => p.1 ++ '=' :: p.2
  | p :: ps => p.1 ++ '=' :: p.2 ++ '&' :: joinPairs ps

/-- Decimal digits of a natural number, most significant first, with an
explicit fuel argument so the definition is structurally recursive (any
fuel above the value itself is enough). -/
def natDigitsFuel : Nat → Nat → List Char
  | 0, _ => []
  | fuel + 1, n =>
    if n < 10 then [hexDigitChar n]
    else natDigitsFuel fuel (n / 10) ++ [hexDigitChar (n % 10)]

/-- Decimal representation of a natural number (the URL serialiser's port
notation). -/
def natDigits (n : Nat) : List Char := natDigitsFuel (n + 1) n

/-- Numeric value of a decimal digit string (the URL parser's port state). -/
def digitsToNat (l : List Char) : Nat :=
  l.foldl (fun a c => 10 * a + (c.toNat - 48)) 0

/-- A parsed URL record: the components of the WHATWG `URL` object that
`normalizeUrl` reads and writes. -/
structure URLRec where
  scheme : List Char
  host : List Char
  port : Option Nat
  path : List Char
  query : Option (List Char)
  frag : Option (List Char)
deriving DecidableEq, Repr

/-- Default port of a special scheme. -/
def isDefaultPort (scheme : List Char) (n : Nat) : Bool :=
  (decide (scheme = ("http".data)) ∧ n = 80) ∨
    (decide (scheme = ("https".data)) ∧ n = 443)

/-- Recognise the scheme prefix of the input; the inputs `normalizeUrl`
feeds to `new URL` always carry an `http://` or `https://` prefix (other
schemes never reach the parser because the regex fallback prepends
`https://`). -/
def matchScheme (l : List Char) : Option (List Char × List Char) :=
  if hasPrefixCI ("https://".data) l then some (("https".data), l.drop 8)
  else if hasPrefixCI ("http://".data) l then some (("http".data), l.drop 7)
  else none

/-- Parse the port part of the authority, stripping the scheme's default
port as the URL parser does. -/
def parsePort (scheme : List Char) : Option (Char × List Char) → Option (Option Nat)
  | none => some none
  | some x =>
    if x.2.isEmpty then some none
    else if x.2.all isDigitChar then
      let n := digitsToNat x.2
      if n < 65536 then some (if isDefaultPort scheme n then none else some n)
      else none
    else none

/-- Does this character end the authority section? -/
def isAuthEnd (c : Char) : Bool :=
  c = '/' ∨ c = '?' ∨ c = '#'

/-- The host/port parsing of the authority section: reject userinfo
(outside the modelled fragment) and forbidden host code points, lower-case
the host, and parse the port. -/
def parseAuthority (scheme auth : List Char) : Option (List Char × Option Nat) :=
  if auth.contains '@' then none
  else
    let hp := splitAtFirst (fun c => c = ':') auth
    let host := hp.1.map asciiLower
    if host.isEmpty ∨ host.any forbiddenHost then none
    else
      match parsePort scheme hp.2 with
      | none => none
      | some port => some (host, port)

/-- Path, query and fragment from the remainder after the authority (the
delimiter that ended the authority, with the rest of the input): an absent
or empty path serialises as `/`; path and query are percent-encoded with
their respective encode sets. -/
def parseAfterAuth (after : Option (Char × List Char)) :
    List Char × Option (List Char) × Option (List Char) :=
  match after with
  | none => (['/'], none, none)
  | some d =>
    if d.1 = '#' then (['/'], none, some d.2)
    else if d.1 = '?' then
      let qf := splitAtFirst (fun c => c = '#') d.2
      (['/'], some (encList queryEncSet qf.1), qf.2.map (·.2))
    else
      let bf := splitAtFirst (fun c => c = '#') (d.1 :: d.2)
      let pq := splitAtFirst (fun c => c = '?') bf.1
      (encList pathEncSet pq.1, pq.2.map (fun x => encList queryEncSet x.2),
        bf.2.map (·.2))

/-- The model of `new URL(url)` on the fragment described in the module
docstring.  Inputs containing non-ASCII characters, userinfo, or a
forbidden host code point are outside the fragment and map to `none` (the
thrown `TypeError` of the builtin). -/
def parseURL (l : List Char) : Option URLRec :=
  if l.any (fun c => 0x80 ≤ c.toNat) then none
  else
    match matchScheme l with
    | none => none
    | some su =>
      let a := splitAtFirst isAuthEnd su.2
      match parseAuthority su.1 a.1 with
      | none => none
      | some hp =>
        let pqf := parseAfterAuth a.2
        some ⟨su.1, hp.1, hp.2, pqf.1, pqf.2.1, pqf.2.2⟩

/-- The serialised port: empty, or `:` and the decimal digits. -/
def portStr : Option Nat → List Char
  | none => []
  | some n => ':' :: natDigits n

/-- The serialised query: empty, or `?` and the raw query. -/
def queryStr : Option (List Char) → List Char
  | none => []
  | some q => '?' :: q

/-- The serialised fragment: empty, or `#` and the raw fragment. -/
def fragStr : Option (List Char) → List Char
  | none => []
  | some f => '#' :: f

/-- Serialise a URL record back to a string, as `u.toString()` does. -/
def serializeURL (u : URLRec) : List Char :=
  u.scheme ++ ':' :: '/' :: '/' :: u.host ++ portStr u.port ++ u.path ++
    queryStr u.query ++ fragStr u.frag

/-- The explicit default-port-stripping step of `normalizeUrl` (lines
36–39).  The URL parser has already stripped default ports, so this is a
no-op, but it is kept for fidelity to the source. -/
def stripDefaultPortStep (u : URLRec) : URLRec :=
  if (u.scheme = ("http".data) ∧ u.port = some 80) ∨
      (u.scheme = ("https".data) ∧ u.port = some 443) then
    { u with port := none }
  else u

/-- The trailing-slash step of `normalizeUrl` (lines 70–72): drop one
trailing slash unless the path is exactly the root. -/
def dropSlashStep (u : URLRec) : URLRec :=
  if u.path ≠ (['/']) ∧ u.path.getLast? = some '/' then
    { u with path := u.path.dropLast }
  else u

/-- The surviving query parameters: the decoded `searchParams` of the URL
with the tracking parameters removed (lines 51–58 of `normalizeUrl`).  The
`protocol`/`hostname` lower-casing assignments of lines 32–33 are no-ops in
the pipeline because the parser has already lower-cased both. -/
def keptPairs (u : URLRec) : List QPair :=
  (parsePairs (u.query.getD [])).filter fun p => ¬ (isTracking p.1 = true)

/-- The full object-mutation pipeline of `normalizeUrl`, composed from the
steps above: filter the decoded parameters, sort them stably by key,
rebuild the query through the `search` setter, and drop a trailing
slash. -/
def normSteps (u : URLRec) : URLRec :=
  let u1 := stripDefaultPortStep u
  let u2 : URLRec := { u1 with frag := none }
  let sorted := sortPairs (keptPairs u2)
  let u3 : URLRec :=
    { u2 with
      query :=
        if sorted.isEmpty then none
        else some (encList queryEncSet (joinPairs sorted)) }
  dropSlashStep u3

/-- The body of `normalizeUrl`'s `try` block: trim and NFC-normalise,
prepend `https://` when the scheme regex fails, parse (a parse failure is
the thrown `TypeError`, caught by the surrounding `catch`), transform, and
serialise. -/
def normalizeBody (raw : List Char) : Except Unit (List Char) :=
  let t0 := nfcModel (jsTrim raw)
  let t := if hasHttpScheme t0 then t0 else ("https://".data) ++ t0
  match parseURL t with
  | none => Except.error ()
  | some u => Except.ok (serializeURL (normSteps u))

/-- The embedding of `normalizeUrl` from `lib/url-normalize.js`: `null` for
falsy or non-string input, otherwise the `try` body with every thrown
exception converted to `null` by the `catch`. -/
def normalizeUrl (v : JsValue) : Option (List Char) :=
  match v with
  | JsValue.strV s => if s.isEmpty then none else (normalizeBody s).toOption
  | _ => none

/-- A decoded query character that one decode–reencode round trip leaves
alone: a byte-sized character that is none of `&`, `=`, `+`, `%` — the four
characters the unescaped query rebuild of `normalizeUrl` does not protect
(`&`/`=` are re-read as structure, `+` decodes to a space, `%` can form a
new escape). -/
def goodQChar (c : Char) : Bool :=
  c.toNat < 256 ∧ ¬ (c = '&') ∧ ¬ (c = '=') ∧ ¬ (c = '+') ∧ ¬ (c = '%')

/-- Both the key and the value of the pair consist of round-trip-safe
characters. -/
def goodPair (p : QPair) : Bool :=
  p.1.all goodQChar ∧ p.2.all goodQChar

/-- The inputs on which `normalizeUrl` is idempotent: the parse succeeds,
every surviving decoded query parameter is round-trip safe, and the
canonical path does not end in a slash unless it is the root (a path such
as `/a//` loses one slash per pass). -/
def idemGuard (s : List Char) : Bool :=
  let t0 := nfcModel (jsTrim s)
  let t := if hasHttpScheme t0 then t0 else ("https://".data) ++ t0
  match parseURL t with
  | none => false
  | some u =>
    let u2 : URLRec := { stripDefaultPortStep u with frag := none }
    (keptPairs u2).all goodPair ∧
      ((normSteps u).path = (['/']) ∨ ¬ ((normSteps u).path.getLast? = some '/'))

/-- The component invariants every record produced by `parseURL` satisfies:
a lower-cased `http`/`https` scheme, a non-empty lower-cased host free of
forbidden code points, a non-default port below 2^16, a non-empty path
beginning with `/` whose characters are outside the path encode set, and a
query whose characters are outside the query encode set. -/
def CanonProps (u : URLRec) : Prop :=
  (u.scheme = ("https".data) ∨ u.scheme = ("http".data)) ∧
    (u.host ≠ [] ∧ u.host.map asciiLower = u.host ∧
      ∀ c ∈ u.host, forbiddenHost c = false) ∧
    (∀ n, u.port = some n → n < 65536 ∧ isDefaultPort u.scheme n = false) ∧
    (u.path ≠ [] ∧ u.path.head? = some '/' ∧ ∀ c ∈ u.path, pathEncSet c = false) ∧
    (∀ q, u.query = some q → ∀ c ∈ q, queryEncSet c = false)

/-! ## JavaScript `Map` as an insertion-ordered association list

`Map.set` replaces the value in place for an existing key and appends for a
new one; `Map.delete` removes the entry; `Map.get` finds it. -/

/-- `Map.prototype.get`. -/
def amapGet {β : Type} (k : String) : List (String × β) → Option β
  | [] => none
  | p :: ps => if p.1 = k then some p.2 else amapGet k ps

/-- `Map.prototype.get` for numeric keys. -/
def nmapGet {β : Type} (k : Nat) : List (Nat × β) → Option β
  | [] => none
  | p :: ps => if p.1 = k then some p.2 else nmapGet k ps

/-- `Map.prototype.set`. -/
def amapSet {β : Type} (k : String) (v : β) : List (String × β) → List (String × β)
  | [] => [(k, v)]
  | p :: ps => if p.1 = k then (k, v) :: ps else p :: amapSet k v ps

/-- `Map.prototype.set` for numeric keys. -/
def nmapSet {β : Type} (k : Nat) (v : β) : List (Nat × β) → List (Nat × β)
  | [] => [(k, v)]
  | p :: ps => if p.1 = k then (k, v) :: ps else p :: nmapSet k v ps

/-- `Map.prototype.delete` for numeric keys. -/
def nmapDelete {β : Type} (k : Nat) (l : List (Nat × β)) : List (Nat × β) :=
  l.filter fun p => ¬ (p.1 = k)

/-! ## `Feed.filterItems` (`src/rss/Feed.js` lines 185–228, identically
`src/models/feed.js` lines 365–399)

Normalisation and 24-hour windowing of parsed feed items. -/

/-- What `new Date(x)` can make of a date-bearing item field: the field is
absent (or otherwise falsy), present but not parseable as a date, or
parseable to an epoch-millisecond timestamp. -/
inductive DateField where
  | missing : DateField
  | invalid : DateField
  | valid : Int → DateField
deriving DecidableEq, Repr

/-- The field selection `item.pubDate || item.published`: `published` is
consulted only when `pubDate` is falsy (absent); a present-but-unparseable
`pubDate` is truthy and wins. -/
def chooseDate (pub publ : DateField) : DateField :=
  if pub = DateField.missing then publ else pub

/-- The guard `!isNaN(itemDate.getTime())`: the timestamp when the chosen
field parsed, `none` otherwise. -/
def parseDateField : DateField → Option Int
  | DateField.valid t => some t
  | _ => none

/-- A raw item as produced by the feed parser, restricted to the fields
`filterItems` reads. -/
structure RawFeedItem where
  title : String
  link : String
  pubDate : DateField
  published : DateField
deriving DecidableEq, Repr

/-- The feed configuration fields `filterItems` copies onto each item
(`this.category` is `data.category || null`, `this.id` may be absent). -/
structure FetchFeed where
  id : Option Nat
  category : Option Nat
deriving DecidableEq, Repr

/-- A normalised item as pushed by `filterItems`. -/
structure NormFeedItem where
  title : String
  url : String
  date : Int
  category : Option Nat
  website : Option Nat
deriving DecidableEq, Repr

/-- `oneDayMs = 24 * 60 * 60 * 1000`. -/
def oneDayMs : Int := 86400000

/-- The parsed publication date of a raw item, after the
`pubDate || published` selection. -/
def itemDateOf (it : RawFeedItem) : Option Int :=
  parseDateField (chooseDate it.pubDate it.published)

/-- The normalised object `filterItems` pushes for a kept item. -/
def normItem (feed : FetchFeed) (it : RawFeedItem) (t : Int) : NormFeedItem :=
  ⟨it.title, it.link, t, feed.category, feed.id⟩

/-- The embedding of `Feed.filterItems`: normalise each raw item and keep
exactly those with a valid date no more than 24 hours before `now` (future
dates satisfy `now - t ≤ oneDayMs` as in the source). -/
def filterItems (feed : FetchFeed) (now : Int) (items : List RawFeedItem) :
    List NormFeedItem :=
  items.filterMap fun it =>
    match itemDateOf it with
    | some t => if now - t ≤ oneDayMs then some (normItem feed it t) else none
    | none => none

/-! ## `errors.log` (`src/models/error.js` lines 31–74)

The destructuring at lines 42–46 binds `type`, `feedId` and `message`, but
line 55 builds the parameter array from the undeclared identifier
`feed_Id`.  ES modules run in strict mode, so evaluating line 55 throws a
`ReferenceError`; lines 55–58 precede the `try` block at line 60, so the
function's promise rejects whenever the guard at lines 35–38 passes. -/

/-- An exception escaping a modelled JavaScript function. -/
inductive JsThrow where
  | referenceError : JsThrow
deriving DecidableEq, Repr

/-- JavaScript truthiness of a modelled value. -/
def jsTruthy : JsValue → Bool
  | JsValue.nullV => false
  | JsValue.undefV => false
  | JsValue.boolV b => b
  | JsValue.numV n => ¬ (n = 0)
  | JsValue.strV s => ¬ s.isEmpty
  | JsValue.objV => true

/-- The argument object of `errors.log`, restricted to the fields it
reads. -/
structure ErrorLogInput where
  type : JsValue
  feed_id : JsValue
  message : JsValue
deriving DecidableEq, Repr

/-- The embedding of `errors.log(data)`: `null` when `data`, `data.type` or
`data.message` is falsy; otherwise the reference to the undeclared
`feed_Id` at line 55 throws before any database work, so the promise
rejects with a `ReferenceError`. -/
def errorsLog (data : Option ErrorLogInput) : Except JsThrow (Option Nat) :=
  match data with
  | none => Except.ok none
  | some d =>
    if ¬ (jsTruthy d.type = true) ∨ ¬ (jsTruthy d.message = true) then Except.ok none
    else Except.error JsThrow.referenceError

/-! ## The item store (`rss_news`) and the part_003 pipeline

The store model follows `models/item.js` (second draft): `bulkInsertIgnore`
is `INSERT IGNORE` under the compound unique key `(website, url)` of the
schema draft this pipeline family relies on (`database.sql`,
`uq_website_url`), and `getInsertedItemsByUrlAndDate` is
`SELECT url FROM rss_news WHERE website = ? AND url IN (?) AND date >= ?`.
Timestamps are store-format seconds modelled as `Nat`. -/

/-- A row of `rss_news`. -/
structure NewsRow where
  id : Nat
  title : List Char
  url : List Char
  category : Nat
  website : Nat
  date : Nat
deriving DecidableEq, Repr

/-- The `rss_news` table with its auto-increment counter. -/
structure NewsStore where
  rows : List NewsRow
  nextId : Nat
deriving DecidableEq, Repr

/-- Does the table already hold a row with this `(website, url)` key? -/
def newsHasDup (rows : List NewsRow) (website : Nat) (url : List Char) : Bool :=
  rows.any fun r => r.website = website ∧ r.url = url

/-- One value tuple of the bulk insert: `[title, url, category, website]`. -/
structure BulkVal where
  title : List Char
  url : List Char
  category : Nat
  website : Nat
deriving DecidableEq, Repr

/-- `INSERT IGNORE INTO rss_news (title, url, category, website) VALUES ?`:
rows violating the `(website, url)` unique key are silently skipped; the
`date` column defaults to the current timestamp. -/
def bulkInsertIgnore (st : NewsStore) (vals : List BulkVal) (now : Nat) : NewsStore :=
  vals.foldl
    (fun st v =>
      if newsHasDup st.rows v.website v.url then st
      else
        { rows := st.rows ++ [⟨st.nextId, v.title, v.url, v.category, v.website, now⟩],
          nextId := st.nextId + 1 })
    st

/-- `getInsertedItemsByUrlAndDate`: the urls of the rows matching
`website = ? AND url IN (?) AND date >= ?` (an empty url list short-circuits
to no rows, as in the model function). -/
def getInsertedItemsByUrlAndDate (st : NewsStore) (websiteId : Nat)
    (urls : List (List Char)) (startTime : Nat) : List (List Char) :=
  if urls.isEmpty then []
  else
    (st.rows.filter fun r =>
        r.website = websiteId ∧ urls.contains r.url ∧ startTime ≤ r.date).map
      (·.url)

/-! ## `FeedManager.persistFeedItems` / `emitNewItems`
(`part_003` lines 240–411, the draft with the atomic upsert pipeline) -/

/-- An in-flight item entering `persistFeedItems`: the raw `url` value is
whatever the parser produced (it is fed to `normalizeUrl`), and `website` /
`category` may be absent (the `||` fallback fills them from the feed). -/
structure PipeItem where
  title : List Char
  url : JsValue
  website : Option Nat
  category : Option Nat
deriving DecidableEq, Repr

/-- An item after canonicalisation and enrichment. -/
structure NPipeItem where
  title : List Char
  url : List Char
  website : Nat
  category : Nat
deriving DecidableEq, Repr

/-- The feed fields the pipeline reads (`this.feed.id`,
`this.feed.category`), for a feed whose configuration row is loaded from
the store. -/
structure PipeFeed where
  id : Nat
  category : Nat
deriving DecidableEq, Repr

/-- The canonicalisation map of `persistFeedItems` lines 348–360: replace
each item's url by its canonical form, dropping items whose
canonicalisation returns `null`, and fill `website`/`category` from the
feed. -/
def canonicalizedItems (feed : PipeFeed) (items : List PipeItem) : List NPipeItem :=
  items.filterMap fun it =>
    match normalizeUrl it.url with
    | none => none
    | some u => some ⟨it.title, u, it.website.getD feed.id, it.category.getD feed.category⟩

/-- The embedding of `persistFeedItems`: record `startTime` before any
write, canonicalise, bulk-insert ignoring duplicates (rows dated
`insertTime`, the store clock at the insert), re-query for rows with
`website = feed.id`, url among the submitted urls and `date ≥ startTime`,
and keep exactly the canonicalised items whose url the query returned.
Returns the new store and `data.newItems`. -/
def persistFeedItems (feed : PipeFeed) (st : NewsStore) (startTime : Nat)
    (insertTime : Nat) (items : List PipeItem) : NewsStore × List NPipeItem :=
  if items.isEmpty then (st, [])
  else
    let normalized := canonicalizedItems feed items
    if normalized.isEmpty then (st, [])
    else
      let st1 := bulkInsertIgnore st
        (normalized.map fun i => ⟨i.title, i.url, i.category, i.website⟩) insertTime
      let urls := normalized.map (·.url)
      let newUrls := getInsertedItemsByUrlAndDate st1 feed.id urls startTime
      (st1, normalized.filter fun i => newUrls.contains i.url)

/-- The embedding of `emitNewItems`: on an ordinary tick
(`firstLoad = false`) or when `skipFirstLoad` is off, every item of
`data.newItems` is emitted, in order. -/
def emitNewItems (skipFirstLoad : Bool) (firstLoad : Bool)
    (newItems : List NPipeItem) : List NPipeItem :=
  if ¬ (firstLoad = true) ∨ ¬ (skipFirstLoad = true) then newItems else []

/-! ## `Aggregator.handleNewItem` (`src/rss/Aggregator.js` lines 123–153)

For each emitted item the aggregator inserts it through
`ItemService.insert`, publishes it on `feed:wire:<category>`, and clears the
feed's `failureTracker` entry.  `ItemService.insert` is modelled after the
duplicate-tolerant draft of the pipeline family (`part_007` lines 77–110):
a plain `INSERT INTO rss_news` whose `ER_DUP_ENTRY` failure is mapped to a
resolved `null`, so the call resolves for the items the bulk upsert already
persisted. -/

/-- `failureTracker` entry: `{ count, originalInterval }`. -/
structure FailTrack where
  count : Nat
  originalInterval : Nat
deriving DecidableEq, Repr

/-- The aggregator state touched by a processing tick. -/
structure TickState where
  tracker : List (Nat × FailTrack)
  store : NewsStore
  wirePublished : List (Nat × NPipeItem)
deriving DecidableEq, Repr

/-- `ItemService.insert` (duplicate-tolerant draft): a duplicate
`(website, url)` resolves to `null`; otherwise the row is inserted and its
new id returned. -/
def itemServiceInsert (st : NewsStore) (i : NPipeItem) (now : Nat) :
    NewsStore × Option Nat :=
  if newsHasDup st.rows i.website i.url then (st, none)
  else
    ({ rows := st.rows ++ [⟨st.nextId, i.title, i.url, i.category, i.website, now⟩],
       nextId := st.nextId + 1 },
      some st.nextId)

/-- The embedding of `handleNewItem`: insert, publish on the category
channel, and delete the feed's `failureTracker` entry.  (The insert call of
the modelled service resolves, so the catch branch that would skip the
tracker eviction is not reachable here.) -/
def handleNewItem (ag : TickState) (item : NPipeItem) (now : Nat) : TickState :=
  let r := itemServiceInsert ag.store item now
  { tracker := nmapDelete item.website ag.tracker,
    store := r.1,
    wirePublished := ag.wirePublished ++ [(item.category, item)] }

/-- One successful processing tick of the part_003 pipeline composed with
the aggregator: `persistFeedItems`, then `emitNewItems` on an ordinary
(non-first) tick, then `handleNewItem` for each emitted item in order. -/
def processTick (feed : PipeFeed) (ag : TickState) (startTime insertTime now : Nat)
    (items : List PipeItem) : TickState :=
  let r := persistFeedItems feed ag.store startTime insertTime items
  let emitted := emitNewItems false false r.2
  emitted.foldl (fun ag it => handleNewItem ag it now)
    { ag with store := r.1 }

/-! ## The scheduler: `FeedEmitter` (`src/rss/FeedItem.js` second module),
`FeedService` (`part_005` second module), `models/feed.js`, and the backoff
logic of `Aggregator` (`src/rss/Aggregator.js`)

Settled-state semantics: a transient-failure event is traced to the state
the Node process settles in.  When every awaited step of the handling chain
resolves, that is the state after `handleError` resolves; when an awaited
step rejects (the backoff persist `dbFeed.update` always does, and the
threshold branch's `dbError.log` always does), nothing on the
`handleError → handleFeedFailure → updateInterval` path catches it,
the promise returned to the `error` listener rejects, and
`process.on('unhandledRejection')` runs `feedEmitter.destroy()` — which
clears `activeIntervals` — and `process.exit(1)`.  A failure streak
therefore never survives its first event under this driver. -/

/-- The runtime `Feed` instance fields the scheduler reads (`Feed`
constructor of `src/rss/Feed.js`: `category` defaults to `null`, `refresh`
falls back to one hour when falsy, `id` is copied unchecked and may be
`undefined`). -/
structure SFeed where
  id : Option Nat
  name : String
  url : String
  category : Option Nat
  refresh : Nat
deriving DecidableEq, Repr

/-- A row of `rss_sites`. -/
structure SiteRow where
  id : Nat
  name : String
  url : String
  category : Option Nat
  refresh : Nat
deriving DecidableEq, Repr

/-- One value of the `activeIntervals` map: the `setInterval` handle (or
`null`) and the live `Feed` instance. -/
structure ActiveEntry where
  intervalId : Option Nat
  feed : SFeed
deriving DecidableEq, Repr

/-- A message published on `aggregator-errors`. -/
inductive PubMsg where
  | errReport : String → String → PubMsg
  | permFailure : Nat → String → PubMsg
deriving DecidableEq, Repr

/-- The scheduler-side state: `failureTracker` and `activeIntervals` (the
runtime maps), the `rss_sites` table with its auto-increment counter, a
source of fresh timer handles, and the published error messages. -/
structure SchedState where
  tracker : List (Nat × FailTrack)
  active : List (String × ActiveEntry)
  sites : List SiteRow
  nextSiteId : Nat
  timerSeq : Nat
  published : List PubMsg
deriving DecidableEq, Repr

/-- `dbFeed.getByUrl`: the row with this url (`url` is unique). -/
def feedGetByUrl (sites : List SiteRow) (url : String) : Option SiteRow :=
  sites.find? fun r => r.url = url

/-- `dbFeed.insert` (`models/feed.js` lines 28–44): the table gains a row
under a fresh auto-increment id.  The function's resolved value is
`undefined`, not the new id: line 35 binds `result` to the whole
`[rows, fields]` array `execute` returns (`services/db` draft, `part_006`
line 35) without destructuring, so `result.insertId` is `undefined`.  The
returned `Option Nat` models that resolved value and is therefore `none`. -/
def dbFeedInsert (sites : List SiteRow) (nextId : Nat) (config : SFeed) :
    List SiteRow × Nat × Option Nat :=
  (sites ++ [⟨nextId, config.name, config.url, config.category, config.refresh⟩],
    nextId + 1, none)

/-- An exception travelling up the scheduler's failure-handling chain: the
`FeedError('db_error')` thrown by `FeedService.addOrUpdate` when the
underlying update rejects, or the `ReferenceError` rejection of
`dbError.log` (`models/error.js` line 55). -/
inductive SchedErr where
  | dbError : SchedErr
  | referenceError : SchedErr
deriving DecidableEq, Repr

/-- The parameter array of `dbFeed.update` (`models/feed.js` line 61):
`[feedConfig.name, feedConfig.url, feedConfig.category, feedConfig.refresh,
feedConfig.id]` — five values. -/
def updateBindings (config : SFeed) : List JsValue :=
  [JsValue.strV config.name.data,
   JsValue.strV config.url.data,
   (match config.category with
     | some c => JsValue.numV c
     | none => JsValue.nullV),
   JsValue.numV config.refresh,
   (match config.id with
     | some i => JsValue.numV i
     | none => JsValue.undefV)]

/-- `dbFeed.update` (`models/feed.js` lines 53–70).  The statement
`UPDATE rss_sites SET name = ?, category = ?, refresh = ? WHERE url = ?`
has four placeholders, but the call binds the five `updateBindings`
parameters.  `execute` (`services/database.js`) runs a prepared statement,
and the driver rejects a bound-parameter count that differs from the
placeholder count, so the call rejects before touching any row; the `ok`
branch — the in-place update by url the surrounding service expects — is
unreachable. -/
def dbFeedUpdate (sites : List SiteRow) (config : SFeed) :
    Except Unit (List SiteRow) :=
  if (updateBindings config).length = 4 then
    Except.ok (sites.map fun r =>
      if r.url = config.url then
        { r with
            name := config.name,
            category := config.category,
            refresh := config.refresh }
      else r)
  else Except.error ()

/-- `FeedService.addOrUpdate` (`part_005` lines 265–303): when a row with
the url exists, run `dbFeed.update` — whose rejection the service's `catch`
wraps into a thrown `FeedError('db_error')` — and return the config with
the existing id; insert otherwise (returning the config with the id
`insert` resolved to, which is `undefined` — see `dbFeedInsert`). -/
def feedServiceAddOrUpdate (st : SchedState) (config : SFeed) :
    SchedState × Except SchedErr SFeed :=
  match feedGetByUrl st.sites config.url with
  | some existing =>
    match dbFeedUpdate st.sites config with
    | Except.ok sites2 =>
      ({ st with sites := sites2 }, Except.ok { config with id := some existing.id })
    | Except.error _ => (st, Except.error SchedErr.dbError)
  | none =>
    let r := dbFeedInsert st.sites st.nextSiteId config
    ({ st with sites := r.1, nextSiteId := r.2.1 },
      Except.ok { config with id := r.2.2 })

/-- `FeedEmitter.stopFeedInterval` (`src/rss/FeedItem.js` lines 256–274):
clear the interval and null the handle, but keep the map entry — the
comment reserves full deletion for a full DB removal, yet no caller ever
deletes it. -/
def stopFeedInterval (st : SchedState) (url : String) : SchedState :=
  match amapGet url st.active with
  | some e =>
    if e.intervalId.isSome then
      { st with active := amapSet url ⟨none, e.feed⟩ st.active }
    else st
  | none => st

/-- The `Feed` constructor fields as built by `startFeedInterval`:
`refresh || 60000 * 60`, `category || null`. -/
def mkFeed (config : SFeed) : SFeed :=
  { config with refresh := if config.refresh = 0 then 3600000 else config.refresh }

/-- `FeedEmitter.startFeedInterval` + `createSetInterval`: stop any running
interval, build a fresh `Feed`, run the immediate first fetch, and store
the interval handle (`null` when that fetch failed) with the feed in
`activeIntervals`. -/
def startFeedInterval (st : SchedState) (config : SFeed) (fetchOk : Bool) :
    SchedState :=
  let st := stopFeedInterval st config.url
  let feed := mkFeed config
  let iid := if fetchOk then some st.timerSeq else none
  { st with
    active := amapSet config.url ⟨iid, feed⟩ st.active,
    timerSeq := st.timerSeq + 1 }

/-- `FeedEmitter.remove` (`src/rss/FeedItem.js` lines 198–209): stop the
interval (the map entry survives with a null handle) and delete the store
row by url. -/
def emitterRemove (st : SchedState) (url : String) : SchedState :=
  let st := stopFeedInterval st url
  { st with sites := st.sites.filter fun r => ¬ (r.url = url) }

/-- `FeedEmitter.updateInterval` (`src/rss/FeedItem.js` lines 387–415):
for a feed present in `activeIntervals`, stop the interval, persist the new
refresh through `FeedService.addOrUpdate`, and restart from the returned
config.  Nothing here catches, so the `FeedError` thrown by `addOrUpdate`
becomes the rejection of this function's promise and the restart never
runs. -/
def emitterUpdateInterval (st : SchedState) (url : String) (newInterval : Nat)
    (fetchOk : Bool) : SchedState × Except SchedErr Unit :=
  match amapGet url st.active with
  | none => (st, Except.ok ())
  | some entry =>
    let st := stopFeedInterval st url
    let updatedConfig : SFeed := { entry.feed with refresh := newInterval }
    let r := feedServiceAddOrUpdate st updatedConfig
    match r.2 with
    | Except.ok cfg => (startFeedInterval r.1 cfg fetchOk, Except.ok ())
    | Except.error e => (r.1, Except.error e)

/-- `FeedEmitter.add` for one config (`src/rss/FeedItem.js` lines 157–187):
validate (a missing url is a `type_error` that is emitted and skips the
entry), persist through `addOrUpdate`, and start the interval from the
persisted config.  Unlike `updateInterval`, `add` wraps the loop body in a
`try`/`catch` that emits the error and continues, so a thrown
`FeedError('db_error')` surfaces as an emitted error report and the
interval is not started. -/
def emitterAdd (st : SchedState) (config : SFeed) (fetchOk : Bool) : SchedState :=
  if config.url = "" then
    { st with published := st.published ++ [PubMsg.errReport "type_error" config.url] }
  else
    let r := feedServiceAddOrUpdate st config
    match r.2 with
    | Except.ok cfg => startFeedInterval r.1 cfg fetchOk
    | Except.error _ =>
      { r.1 with published := r.1.published ++ [PubMsg.errReport "db_error" config.url] }

/-- The embedding of `Aggregator.handleFeedFailure` (`src/rss/Aggregator.js`
lines 289–338).  `originalInterval` is the caller-supplied third argument;
the tracker's own `originalInterval` field is written at the first failure
and never read again, exactly as in the source.  At the failure threshold
the feed is removed (row deleted, map entry kept with a null handle), the
tracker entry evicted and `permanent_failure` published; the subsequent
`dbError.log` call is the `errors.log` embedding, whose rejection — with no
`.catch` at this call site — becomes the rejection of this function's
promise.  Below the threshold the new interval is
`min(originalInterval * 2^(count-1), 86400000)` and the awaited
`updateInterval` tries to persist it; its rejection propagates likewise. -/
def handleFeedFailure (st : SchedState) (feedId : Nat) (feedUrl : String)
    (originalInterval : Nat) (fetchOk : Bool) : SchedState × Except SchedErr Unit :=
  let tracking := (nmapGet feedId st.tracker).getD ⟨0, originalInterval⟩
  let tracking : FailTrack := { tracking with count := tracking.count + 1 }
  let st := { st with tracker := nmapSet feedId tracking st.tracker }
  if 5 ≤ tracking.count then
    let st := emitterRemove st feedUrl
    let st := { st with tracker := nmapDelete feedId st.tracker }
    let st := { st with published := st.published ++ [PubMsg.permFailure feedId feedUrl] }
    match errorsLog (some ⟨JsValue.strV ("permanent_failure".data), JsValue.numV feedId,
        JsValue.strV ("Feed disabled due to consecutive failures.".data)⟩) with
    | Except.ok _ => (st, Except.ok ())
    | Except.error _ => (st, Except.error SchedErr.referenceError)
  else
    let newInterval := min (originalInterval * 2 ^ (tracking.count - 1)) 86400000
    emitterUpdateInterval st feedUrl newInterval fetchOk

/-- The transient branch of `Aggregator.handleError` (`src/rss/Aggregator.js`
lines 216–277) for a `fetch_url_error`/`parse_url_error` carrying a feed
url and id: publish the error report, look up the running feed config, and
run the backoff with the config's current `refresh` as the
`originalInterval` argument (skipping backoff when no config is found). -/
def handleTransientError (st : SchedState) (errName : String) (feedId : Nat)
    (feedUrl : String) (fetchOk : Bool) : SchedState × Except SchedErr Unit :=
  let st := { st with published := st.published ++ [PubMsg.errReport errName feedUrl] }
  match amapGet feedUrl st.active with
  | some entry => handleFeedFailure st feedId feedUrl entry.feed.refresh fetchOk
  | none => (st, Except.ok ())

/-- `FeedEmitter.destroy` (`src/rss/FeedItem.js` lines 323–335):
`stopFeedInterval` for every tracked url, then `activeIntervals.clear()` —
the runtime map ends empty. -/
def destroyEmitter (st : SchedState) : SchedState :=
  { st with active := [] }

/-- The state the process settles in after one transient-failure event.
The `error` listener (`src/rss/Aggregator.js` line 88) does not await
`handleError`, so when the handling chain rejects, the rejection reaches
`process.on('unhandledRejection')` (`Aggregator.handleUnhandledRejection`,
lines 419–430): `feedEmitter.destroy()` clears the runtime map and
`process.exit(1)` ends the process.  The returned `Bool` records whether
the process exited. -/
def transientFailureSettled (st : SchedState) (feedId : Nat) (feedUrl : String) :
    SchedState × Bool :=
  let r := handleTransientError st "fetch_url_error" feedId feedUrl false
  match r.2 with
  | Except.ok _ => (r.1, false)
  | Except.error _ => (destroyEmitter r.1, true)

/-- The `replace` branch of `Aggregator.handleRedisMessage`
(`src/rss/Aggregator.js` lines 381–385): `remove(url)` awaited, then
`add(message)` awaited. -/
def replaceCmd (st : SchedState) (url name : String) (category : Option Nat)
    (refresh : Nat) (fetchOk : Bool) : SchedState :=
  let st := emitterRemove st url
  emitterAdd st ⟨none, name, url, category, refresh⟩ fetchOk

/-- A convenient initial scheduler state: one healthy feed, loaded from its
store row, its interval running. -/
def oneFeedState (id : Nat) (url name : String) (category : Option Nat)
    (refresh : Nat) : SchedState :=
  { tracker := [],
    active := [(url, ⟨some 0, ⟨some id, name, url, category, refresh⟩⟩)],
    sites := [⟨id, name, url, category, refresh⟩],
    nextSiteId := id + 1,
    timerSeq := 1,
    published := [] }

/-! ## Theorems -/

/-- Deleting a key from the numeric map removes it. -/
theorem nmapGet_nmapDelete_self {β : Type} (k : Nat) (l : List (Nat × β)) :
    nmapGet k (nmapDelete k l) = none := by
  induction l with
  | nil => rfl
  | cons p ps ih =>
    by_cases h : p.1 = k
    · simpa [nmapDelete, List.filter_cons, h] using ih
    · simp only [nmapDelete, List.filter_cons, decide_not] at ih ⊢
      simp [h, nmapGet, ih]

/-- C1.  The claim states that after `N < 5` consecutive transient failures
of a feed with original refresh `R`, the refresh persisted to the store is
`min(R * 2^(N-1), 86400000)`.  In the code no backed-off interval is ever
persisted: `dbFeed.update` rejects on every input (five bound parameters
against the statement's four placeholders), the resulting
`FeedError('db_error')` propagates uncaught through
`updateInterval`, `handleFeedFailure` and `handleError`, and the
`unhandledRejection` handler destroys the emitter and exits the process
while the *first* failure of the streak is being handled — the store row
still holds `R = 60000`, the runtime map is cleared, and no second
consecutive failure can occur. -/
theorem backoff_persist_rejects_and_exits :
    (∀ sites config, dbFeedUpdate sites config = Except.error ()) ∧
      (transientFailureSettled (oneFeedState 7 "u" "name" (some 2) 60000)
        7 "u").2 = true ∧
      (transientFailureSettled (oneFeedState 7 "u" "name" (some 2) 60000)
        7 "u").1.sites = [⟨7, "name", "u", some 2, 60000⟩] ∧
      (transientFailureSettled (oneFeedState 7 "u" "name" (some 2) 60000)
        7 "u").1.active = [] := by
  refine ⟨?_, rfl, rfl, rfl⟩
  intro sites config
  rw [dbFeedUpdate, if_neg (by simp [updateBindings])]

/-- C3.  After the fifth consecutive transient failure the feed is
permanently removed, as claimed: the threshold branch of
`handleFeedFailure` deletes the store row and evicts the tracker entry
through `FeedEmitter.remove`, publishes `permanent_failure`, and then
awaits `dbError.log`, whose certain `ReferenceError` rejection reaches the
`unhandledRejection` handler — `feedEmitter.destroy()` clears the runtime
map (so the feed is absent from it in the settled state, which
`FeedEmitter.remove` alone would not achieve) and the process exits. -/
theorem fifth_failure_permanent_removal (id : Nat) (url name : String)
    (cat : Option Nat) (refresh : Nat) :
    feedGetByUrl (transientFailureSettled
        { oneFeedState id url name cat refresh with
            tracker := [(id, ⟨4, refresh⟩)] } id url).1.sites url = none ∧
      amapGet url (transientFailureSettled
        { oneFeedState id url name cat refresh with
            tracker := [(id, ⟨4, refresh⟩)] } id url).1.active = none ∧
      nmapGet id (transientFailureSettled
        { oneFeedState id url name cat refresh with
            tracker := [(id, ⟨4, refresh⟩)] } id url).1.tracker = none ∧
      PubMsg.permFailure id url ∈ (transientFailureSettled
        { oneFeedState id url name cat refresh with
            tracker := [(id, ⟨4, refresh⟩)] } id url).1.published ∧
      (transientFailureSettled
        { oneFeedState id url name cat refresh with
            tracker := [(id, ⟨4, refresh⟩)] } id url).2 = true := by
  simp [transientFailureSettled, handleTransientError, handleFeedFailure,
    oneFeedState, amapGet, amapSet, nmapGet, nmapSet, nmapDelete,
    emitterRemove, stopFeedInterval, destroyEmitter, errorsLog, jsTruthy,
    feedGetByUrl, List.find?]

/-- C6.  The claim states `errors.log` never rejects.  On any input with a
truthy `type` and `message` the parameter array at line 55 references the
undeclared identifier `feed_Id` and the promise rejects with a
`ReferenceError` (the statement sits before the `try` block); the
missing-`type`/`message` guard and the missing-`data` guard do return
`null`. -/
theorem errors_log_rejects_on_valid_input :
    errorsLog (some ⟨JsValue.strV ("db_error".data), JsValue.numV 1,
        JsValue.strV ("boom".data)⟩) = Except.error JsThrow.referenceError ∧
      errorsLog (some ⟨JsValue.undefV, JsValue.numV 1,
        JsValue.strV ("boom".data)⟩) = Except.ok none ∧
      errorsLog none = Except.ok none := by
  exact ⟨rfl, rfl, rfl⟩

/-- C7 counterexample.  The claim states a `replace` command for a
registered feed updates the store row in place, keeping its id.  In the
code `replace` is an awaited `remove` (which deletes the row) followed by
`add` (which, finding no row, inserts a fresh one), so the feed's row comes
back under a new auto-increment id: starting from row id 3 for url `u`,
after the replace the only row for `u` has id 4. -/
theorem replace_assigns_new_store_id :
    feedGetByUrl (replaceCmd (oneFeedState 3 "u" "old" (some 2) 60000)
        "u" "n" (some 7) 30000 true).sites "u" =
      some ⟨4, "n", "u", some 7, 30000⟩ ∧ ¬ ((4 : Nat) = 3) := by
  constructor
  · rfl
  · decide

/-- C7 amended.  Processing
`{"cmd":"replace","url":"u","category":7,"refresh":30000,"name":"n"}` for a
registered feed cancels the feed's timer, deletes its store row and inserts
a fresh row (new auto-increment id) with the new name, category and
refresh, then starts a new timer with period 30000 ms (the runtime feed's
`id` is `undefined` because `insert`'s resolved value is misread — see
`dbFeedInsert`). -/
theorem replace_reinserts_and_restarts_timer :
    (replaceCmd (oneFeedState 3 "u" "old" (some 2) 60000)
        "u" "n" (some 7) 30000 true).sites = [⟨4, "n", "u", some 7, 30000⟩] ∧
      amapGet "u" (replaceCmd (oneFeedState 3 "u" "old" (some 2) 60000)
          "u" "n" (some 7) 30000 true).active =
        some ⟨some 1, ⟨none, "n", "u", some 7, 30000⟩⟩ := by
  exact ⟨rfl, rfl⟩

/-- C8 counterexample.  The claim states the canonicalizer maps
`"example.com"` to exactly `"https://example.com"`; the URL serialiser
keeps the root path `/`, and the trailing-slash step explicitly leaves the
root slash in place, so the output carries a trailing slash. -/
theorem canonicalize_schemeless_not_bare :
    ¬ (normalizeUrl (JsValue.strV ("example.com".data)) =
      some ("https://example.com".data)) := by
  decide

/-- C8 amended.  The canonicalizer applied to the schemeless input
`"example.com"` returns exactly `"https://example.com/"` (scheme prepended,
root path serialised with its slash). -/
theorem canonicalize_schemeless_root_slash :
    normalizeUrl (JsValue.strV ("example.com".data)) =
      some ("https://example.com/".data) := by
  rfl

/-- C9 counterexample.  The canonicalizer is not idempotent: the query
value `a&b` (from `?x=a%26b`) is decoded by `searchParams` and written back
unescaped by the query rebuild, so the first output `?x=a&b` re-parses as
two parameters and the second pass yields `?b=&x=a`. -/
theorem canonicalize_not_idempotent :
    normalizeUrl (JsValue.strV ("https://t.test/?x=a%26b".data)) =
        some ("https://t.test/?x=a&b".data) ∧
      normalizeUrl (JsValue.strV ("https://t.test/?x=a&b".data)) =
        some ("https://t.test/?b=&x=a".data) ∧
      ¬ (("https://t.test/?b=&x=a".data : List Char) =
        ("https://t.test/?x=a&b".data)) := by
  refine ⟨rfl, rfl, ?_⟩
  decide

/-- On an ordinary (non-first) tick every item of `data.newItems` is
emitted. -/
theorem emitNewItems_not_first (sk : Bool) (l : List NPipeItem) :
    emitNewItems sk false l = l := by
  simp [emitNewItems]

/-- C2.  In a single tick of the part_003 pipeline, the emitted set is a
subset of the successfully canonicalised items, and a canonicalised item is
emitted exactly when its canonical url is among the rows the post-insert
query returns for `website = feed.id`, url in the submitted url set and
`date ≥ startTime`. -/
theorem pipeline_emits_subset_and_probe_iff (sk : Bool) (feed : PipeFeed)
    (st : NewsStore) (t0 t1 : Nat) (items : List PipeItem) :
    (∀ x, x ∈ emitNewItems sk false (persistFeedItems feed st t0 t1 items).2 →
        x ∈ canonicalizedItems feed items) ∧
      (∀ x, x ∈ canonicalizedItems feed items →
        (x ∈ emitNewItems sk false (persistFeedItems feed st t0 t1 items).2 ↔
          (getInsertedItemsByUrlAndDate (persistFeedItems feed st t0 t1 items).1
              feed.id ((canonicalizedItems feed items).map (·.url)) t0).contains
            x.url = true)) := by
  rw [emitNewItems_not_first]
  by_cases h1 : items.isEmpty
  · have : items = [] := by simpa [List.isEmpty_iff] using h1
    subst this
    simp [persistFeedItems, canonicalizedItems]
  · by_cases h2 : (canonicalizedItems feed items).isEmpty
    · have hc : canonicalizedItems feed items = [] := by
        simpa [List.isEmpty_iff] using h2
      constructor
      · intro x hx
        simp [persistFeedItems, h1, h2] at hx
      · intro x hx
        rw [hc] at hx
        cases hx
    · have hmain : (persistFeedItems feed st t0 t1 items).2 =
          (canonicalizedItems feed items).filter fun i =>
            (getInsertedItemsByUrlAndDate (persistFeedItems feed st t0 t1 items).1
                feed.id ((canonicalizedItems feed items).map (·.url)) t0).contains
              i.url := by
        simp [persistFeedItems, h1, h2]
      rw [hmain]
      constructor
      · intro x hx
        exact (List.mem_filter.mp hx).1
      · intro x hx
        constructor
        · intro hx2
          exact (List.mem_filter.mp hx2).2
        · intro hq
          exact List.mem_filter.mpr ⟨hx, hq⟩

/-- C2 witness: on a fresh store, a single canonicalisable item is emitted,
by the iff of the main theorem (its url is returned by the probe). -/
theorem pipeline_probe_witness :
    (⟨("t".data), ("https://e.test/a".data), 7, 3⟩ : NPipeItem) ∈
      emitNewItems true false (persistFeedItems ⟨7, 3⟩ ⟨[], 1⟩ 100 100
        [⟨("t".data), JsValue.strV ("https://e.test/a?utm_source=x".data), none,
          none⟩]).2 :=
  ((pipeline_emits_subset_and_probe_iff true ⟨7, 3⟩ ⟨[], 1⟩ 100 100
      [⟨("t".data), JsValue.strV ("https://e.test/a?utm_source=x".data), none,
        none⟩]).2
    ⟨("t".data), ("https://e.test/a".data), 7, 3⟩ (by decide)).mpr (by decide)

/-- C4 counterexample.  A successful tick that identifies zero new items
(here: the only item is already persisted with an earlier date, so the
post-insert probe returns nothing) leaves the feed's `failureTracker` entry
in place, contradicting the claim that the entry is absent after any one
successful tick. -/
theorem successful_tick_zero_new_keeps_tracker :
    (processTick ⟨7, 3⟩
        ⟨[(7, ⟨2, 60000⟩)], ⟨[⟨1, ("t".data), ("https://e.test/a".data), 3, 7, 100⟩], 2⟩, []⟩
        200 200 200
        [⟨("t".data), JsValue.strV ("https://e.test/a?utm_source=x".data), none,
          none⟩]).tracker = [(7, ⟨2, 60000⟩)] := by
  rfl

/-- C4 amended.  The `failureTracker` entry for a feed is evicted by
`handleNewItem` — that is, on the first successfully saved-and-published
new item — and only then: a successful tick with zero new items leaves the
tracker untouched, while a `handleNewItem` call for an item always leaves
no tracker entry for that item's feed. -/
theorem tracker_evicted_only_by_saved_new_item :
    (∀ (feed : PipeFeed) (ag : TickState) (t0 t1 now : Nat) (items : List PipeItem),
        (persistFeedItems feed ag.store t0 t1 items).2 = [] →
        (processTick feed ag t0 t1 now items).tracker = ag.tracker) ∧
      (∀ (ag : TickState) (it : NPipeItem) (now : Nat),
        nmapGet it.website (handleNewItem ag it now).tracker = none) := by
  constructor
  · intro feed ag t0 t1 now items h
    simp [processTick, h, emitNewItems_not_first]
  · intro ag it now
    simp [handleNewItem, nmapGet_nmapDelete_self]

/-- C4 amended witness: the zero-new tick of the counterexample leaves the
tracker, and a `handleNewItem` call evicts the entry for feed 7. -/
theorem tracker_evicted_witness :
    (processTick ⟨7, 3⟩
        ⟨[(7, ⟨2, 60000⟩)], ⟨[⟨1, ("t".data), ("https://e.test/a".data), 3, 7, 100⟩], 2⟩, []⟩
        200 200 200 []).tracker =
      [(7, ⟨2, 60000⟩)] ∧
      nmapGet 7 (handleNewItem
        ⟨[(7, ⟨2, 60000⟩)], ⟨[], 1⟩, []⟩
        ⟨("t".data), ("https://e.test/a".data), 7, 3⟩ 100).tracker = none :=
  ⟨tracker_evicted_only_by_saved_new_item.1 ⟨7, 3⟩
      ⟨[(7, ⟨2, 60000⟩)], ⟨[⟨1, ("t".data), ("https://e.test/a".data), 3, 7, 100⟩], 2⟩, []⟩
      200 200 200 [] (by rfl),
    tracker_evicted_only_by_saved_new_item.2
      ⟨[(7, ⟨2, 60000⟩)], ⟨[], 1⟩, []⟩
      ⟨("t".data), ("https://e.test/a".data), 7, 3⟩ 100⟩

/-- One raw item's contribution to `filterItems`: it yields `x` exactly
when its chosen date parses to a timestamp within the 24-hour window and
`x` is its normalisation. -/
theorem filterItems_step (feed : FetchFeed) (now : Int) (it : RawFeedItem)
    (x : NormFeedItem) :
    (match itemDateOf it with
      | some t => if now - t ≤ oneDayMs then some (normItem feed it t) else none
      | none => none) = some x ↔
      ∃ t, itemDateOf it = some t ∧ now - t ≤ oneDayMs ∧ x = normItem feed it t := by
  cases h : itemDateOf it with
  | none => simp
  | some t =>
    by_cases hw : now - t ≤ oneDayMs
    · simp only [hw, if_pos]
      constructor
      · intro he
        exact ⟨t, rfl, hw, (Option.some_inj.mp he).symm⟩
      · rintro ⟨t2, ht2, _, hx⟩
        obtain rfl : t = t2 := Option.some_inj.mp ht2
        rw [hx]
    · simp only [hw, if_neg, not_false_iff]
      constructor
      · intro he
        cases he
      · rintro ⟨t2, ht2, hw2, _⟩
        obtain rfl : t = t2 := Option.some_inj.mp ht2
        exact absurd hw2 hw

/-- C5.  `filterItems` keeps exactly the items whose chosen publication
date (`pubDate || published`) parses and lies within the last 24 hours,
normalised to `{title, url := link, date, category := feed.category,
website := feed.id}`; in particular every output item carries the feed's
category and id and is at most 24 hours old at fetch time, so invalid and
missing dates are dropped and items older than 24 hours are never
published. -/
theorem fetch_filter_characterization (feed : FetchFeed) (now : Int)
    (items : List RawFeedItem) :
    (∀ x, x ∈ filterItems feed now items ↔
        ∃ it, it ∈ items ∧ ∃ t, itemDateOf it = some t ∧ now - t ≤ oneDayMs ∧
          x = normItem feed it t) ∧
      (∀ x, x ∈ filterItems feed now items →
        x.category = feed.category ∧ x.website = feed.id ∧
          now - x.date ≤ oneDayMs) := by
  have hch : ∀ x, x ∈ filterItems feed now items ↔
      ∃ it, it ∈ items ∧ ∃ t, itemDateOf it = some t ∧ now - t ≤ oneDayMs ∧
        x = normItem feed it t := by
    intro x
    rw [filterItems, List.mem_filterMap]
    constructor
    · rintro ⟨it, hit, he⟩
      exact ⟨it, hit, (filterItems_step feed now it x).mp he⟩
    · rintro ⟨it, hit, hrest⟩
      exact ⟨it, hit, (filterItems_step feed now it x).mpr hrest⟩
  refine ⟨hch, ?_⟩
  intro x hx
  obtain ⟨it, _, t, _, hw, hx⟩ := (hch x).mp hx
  subst hx
  exact ⟨rfl, rfl, hw⟩

/-- C5 witness: a raw item dated 500 ms before `now = 1000` is kept and
normalised with the feed's category and id, and its date is within the
window, via the characterisation. -/
theorem fetch_filter_witness :
    normItem ⟨some 7, some 3⟩ ⟨"t", "https://e.test/a", DateField.valid 500,
        DateField.missing⟩ 500 ∈
      filterItems ⟨some 7, some 3⟩ 1000
        [⟨"t", "https://e.test/a", DateField.valid 500, DateField.missing⟩] ∧
      (1000 : Int) - 500 ≤ oneDayMs :=
  ⟨((fetch_filter_characterization ⟨some 7, some 3⟩ 1000
        [⟨"t", "https://e.test/a", DateField.valid 500, DateField.missing⟩]).1 _).mpr
      ⟨⟨"t", "https://e.test/a", DateField.valid 500, DateField.missing⟩,
        by decide, 500, rfl, by decide, rfl⟩,
    by decide⟩

/-- C10.  `normalizeUrl` is total on every JavaScript input: a non-string
(or empty-string) input yields `null` through the type guard, a string the
`try` body fails to parse yields `null` through the `catch`, and a string
the body canonicalises yields that string — no exception escapes. -/
theorem normalize_url_total (v : JsValue) :
    ((∀ s, ¬ (v = JsValue.strV s)) → normalizeUrl v = none) ∧
      (∀ s, v = JsValue.strV s →
        (s.isEmpty = true → normalizeUrl v = none) ∧
          (normalizeBody s = Except.error () → normalizeUrl v = none) ∧
          (∀ c, normalizeBody s = Except.ok c → normalizeUrl v = some c)) := by
  constructor
  · intro hns
    cases v with
    | strV s => exact absurd rfl (hns s)
    | nullV => rfl
    | undefV => rfl
    | boolV b => rfl
    | numV n => rfl
    | objV => rfl
  · intro s hv
    subst hv
    refine ⟨?_, ?_, ?_⟩
    · intro he
      simp [normalizeUrl, he]
    · intro hb
      by_cases he : s.isEmpty
      · simp [normalizeUrl, he]
      · simp [normalizeUrl, he, hb, Except.toOption]
    · intro c hb
      have he : s.isEmpty = false := by
        cases s with
        | nil =>
          exfalso
          rw [show normalizeBody [] = Except.error () from rfl] at hb
          cases hb
        | cons a as => rfl
      simp [normalizeUrl, he, hb, Except.toOption]

/-- C10 witness: a numeric input and an unparseable string input both yield
`null`, via the totality theorem. -/
theorem normalize_url_total_witness :
    normalizeUrl (JsValue.numV 3) = none ∧
      normalizeUrl (JsValue.strV ("ht tp://x".data)) = none :=
  ⟨(normalize_url_total (JsValue.numV 3)).1 (by intro s hs; cases hs),
    ((normalize_url_total (JsValue.strV ("ht tp://x".data))).2
        ("ht tp://x".data) rfl).2.1 rfl⟩


/-! ## Guarded idempotence of the canonicalizer (C9)

The remainder of the development proves that `normalizeUrl` is idempotent
on the inputs characterised by `idemGuard`: a serialise–reparse round trip
for canonical records, a decode–reencode round trip for the rebuilt query,
and a fixpoint argument for the object-mutation pipeline. -/

theorem toNat_ofNat_small (n : Nat) (h : n < 55296) : (Char.ofNat n).toNat = n := by
  have hv : Nat.isValidChar n := Or.inl h
  rw [Char.ofNat, dif_pos hv]
  simp [Char.ofNatAux, Char.toNat, UInt32.toNat, UInt32.ofNat', BitVec.ofNatLt]

theorem char_eq_iff_toNat (c d : Char) : c = d ↔ c.toNat = d.toNat := by
  constructor
  · rintro rfl; rfl
  · intro h
    exact Char.ext (UInt32.toNat.inj h)

theorem char_le_iff_toNat (c d : Char) : c ≤ d ↔ c.toNat ≤ d.toNat := by
  rw [Char.le_def, UInt32.le_def, BitVec.le_def]
  exact Iff.rfl

theorem asciiLower_toNat (c : Char) :
    (asciiLower c).toNat = if 65 ≤ c.toNat ∧ c.toNat ≤ 90 then c.toNat + 32 else c.toNat := by
  rw [asciiLower]
  by_cases h : 'A' ≤ c ∧ c ≤ 'Z'
  · have h1 : 65 ≤ c.toNat := (char_le_iff_toNat 'A' c).mp h.1
    have h2 : c.toNat ≤ 90 := (char_le_iff_toNat c 'Z').mp h.2
    rw [if_pos h, if_pos ⟨h1, h2⟩]
    exact toNat_ofNat_small _ (by omega)
  · have : ¬ (65 ≤ c.toNat ∧ c.toNat ≤ 90) := by
      intro hc
      exact h ⟨(char_le_iff_toNat 'A' c).mpr hc.1, (char_le_iff_toNat c 'Z').mpr hc.2⟩
    rw [if_neg h, if_neg this]

theorem asciiLower_asciiLower (c : Char) :
    asciiLower (asciiLower c) = asciiLower c := by
  rw [char_eq_iff_toNat, asciiLower_toNat, asciiLower_toNat c]
  by_cases h : 65 ≤ c.toNat ∧ c.toNat ≤ 90
  · rw [if_pos h, if_neg (by omega)]
  · rw [if_neg h, if_neg h]

theorem map_asciiLower_idem (l : List Char) :
    (l.map asciiLower).map asciiLower = l.map asciiLower := by
  rw [List.map_map]
  exact List.map_congr_left fun c _ => asciiLower_asciiLower c

theorem asciiLower_fixed (c : Char) (h : ¬ (65 ≤ c.toNat ∧ c.toNat ≤ 90)) :
    asciiLower c = c := by
  rw [char_eq_iff_toNat, asciiLower_toNat, if_neg h]

theorem splitAtFirst_no_hit (p : Char → Bool) (l : List Char)
    (h : ∀ c ∈ l, p c = false) : splitAtFirst p l = (l, none) := by
  induction l with
  | nil => rfl
  | cons c cs ih =>
    rw [splitAtFirst, if_neg (by simp [h c (by simp)]),
      ih fun x hx => h x (List.mem_cons_of_mem c hx)]

theorem splitAtFirst_hit (p : Char → Bool) (a r : List Char) (d : Char)
    (ha : ∀ c ∈ a, p c = false) (hd : p d = true) :
    splitAtFirst p (a ++ d :: r) = (a, some (d, r)) := by
  induction a with
  | nil => simp [splitAtFirst, hd]
  | cons c cs ih =>
    rw [List.cons_append, splitAtFirst, if_neg (by simp [ha c (by simp)]),
      ih fun x hx => ha x (List.mem_cons_of_mem c hx)]

theorem splitAtFirst_fst_subset (p : Char → Bool) (l : List Char) :
    ∀ c ∈ (splitAtFirst p l).1, c ∈ l := by
  induction l with
  | nil => intro c hc; cases hc
  | cons a as ih =>
    intro c hc
    rw [splitAtFirst] at hc
    by_cases h : p a
    · rw [if_pos h] at hc
      cases hc
    · rw [if_neg h] at hc
      rcases List.mem_cons.mp hc with rfl | hc
      · exact List.mem_cons_self _ _
      · exact List.mem_cons_of_mem _ (ih c hc)

theorem splitAtFirst_snd_subset (p : Char → Bool) (l : List Char) (d : Char)
    (r : List Char) (h : (splitAtFirst p l).2 = some (d, r)) :
    d ∈ l ∧ ∀ c ∈ r, c ∈ l := by
  induction l with
  | nil => cases h
  | cons a as ih =>
    rw [splitAtFirst] at h
    by_cases hp : p a
    · rw [if_pos hp] at h
      obtain ⟨rfl, rfl⟩ : a = d ∧ as = r := by
        simpa using h
      exact ⟨List.mem_cons_self _ _, fun c hc => List.mem_cons_of_mem _ hc⟩
    · rw [if_neg hp] at h
      obtain ⟨hd, hr⟩ := ih h
      exact ⟨List.mem_cons_of_mem _ hd, fun c hc => List.mem_cons_of_mem _ (hr c hc)⟩

theorem splitAmp_no_amp (l : List Char) (h : ∀ c ∈ l, ¬ (c = '&')) :
    splitAmp l = [l] := by
  induction l with
  | nil => rfl
  | cons c cs ih =>
    rw [splitAmp, if_neg (by simpa using h c (by simp)),
      ih fun x hx => h x (List.mem_cons_of_mem c hx)]

theorem splitAmp_append_amp (a r : List Char) (h : ∀ c ∈ a, ¬ (c = '&')) :
    splitAmp (a ++ '&' :: r) = a :: splitAmp r := by
  induction a with
  | nil => simp [splitAmp]
  | cons c cs ih =>
    rw [List.cons_append, splitAmp, if_neg (by simpa using h c (by simp)),
      ih fun x hx => h x (List.mem_cons_of_mem c hx)]

theorem dropWhile_eq_self_of_none (p : Char → Bool) (l : List Char)
    (h : ∀ c ∈ l, p c = false) : l.dropWhile p = l := by
  cases l with
  | nil => rfl
  | cons c cs => rw [List.dropWhile_cons, if_neg (by simp [h c (by simp)])]

theorem jsTrim_eq_self (l : List Char) (h : ∀ c ∈ l, isWsChar c = false) :
    jsTrim l = l := by
  rw [jsTrim, dropWhile_eq_self_of_none _ _ h,
    dropWhile_eq_self_of_none _ _ (fun c hc => h c (List.mem_reverse.mp hc)),
    List.reverse_reverse]

theorem encList_append (S : Char → Bool) (a b : List Char) :
    encList S (a ++ b) = encList S a ++ encList S b := by
  induction a with
  | nil => rfl
  | cons c cs ih => rw [List.cons_append, encList, encList, ih, List.append_assoc]

theorem mem_encList_cases (S : Char → Bool) (l : List Char)
    (hl : ∀ c ∈ l, c.toNat < 256) :
    ∀ x ∈ encList S l,
      x = '%' ∨ (∃ d, d < 16 ∧ x = hexDigitChar d) ∨ (x ∈ l ∧ S x = false) := by
  induction l with
  | nil => intro x hx; cases hx
  | cons c cs ih =>
    intro x hx
    rw [encList] at hx
    rcases List.mem_append.mp hx with hx1 | hx2
    · rw [encChar] at hx1
      by_cases hS : S c
      · rw [if_pos hS] at hx1
        have hc : c.toNat < 256 := hl c (by simp)
        have hx2 : x = '%' ∨ x = hexDigitChar (c.toNat / 16) ∨
            x = hexDigitChar (c.toNat % 16) := by simpa using hx1
        rcases hx2 with h1 | h1 | h1
        · left; exact h1
        · right; left; exact ⟨c.toNat / 16, by omega, h1⟩
        · right; left; exact ⟨c.toNat % 16, by omega, h1⟩
      · rw [if_neg hS] at hx1
        obtain rfl : x = c := by simpa using hx1
        right; right
        exact ⟨List.mem_cons_self _ _, by simpa using hS⟩
    · rcases ih (fun d hd => hl d (List.mem_cons_of_mem c hd)) x hx2 with h | h | h
      · left; exact h
      · right; left; exact h
      · right; right; exact ⟨List.mem_cons_of_mem c h.1, h.2⟩

theorem encList_eq_self (S : Char → Bool) (l : List Char)
    (h : ∀ c ∈ l, S c = false) : encList S l = l := by
  induction l with
  | nil => rfl
  | cons c cs ih =>
    rw [encList, encChar, if_neg (by simp [h c (by simp)]),
      ih fun x hx => h x (List.mem_cons_of_mem c hx)]
    rfl

theorem plusToSpace_eq_self (l : List Char) (h : ∀ c ∈ l, ¬ (c = '+')) :
    plusToSpace l = l := by
  induction l with
  | nil => rfl
  | cons c cs ih =>
    have hcs := ih fun x hx => h x (List.mem_cons_of_mem c hx)
    rw [plusToSpace] at hcs ⊢
    rw [List.map_cons, if_neg (h c (by simp)), hcs]

theorem hexDigit_facts :
    ∀ d, d < 16 → isHexDigitChar (hexDigitChar d) = true ∧
      hexVal (hexDigitChar d) = d ∧ (hexDigitChar d).toNat < 128 ∧
      pathEncSet (hexDigitChar d) = false ∧ queryEncSet (hexDigitChar d) = false ∧
      ¬ (hexDigitChar d = '&') ∧ ¬ (hexDigitChar d = '=') ∧
      ¬ (hexDigitChar d = '+') ∧ ¬ (hexDigitChar d = '%') ∧
      ¬ (hexDigitChar d = '?') ∧ ¬ (hexDigitChar d = '#') ∧
      0x21 ≤ (hexDigitChar d).toNat := by
  decide

theorem pct_step_enc (S : Char → Bool) (c : Char) (T : List Char)
    (hc : c.toNat < 256) (hne : ¬ (c = '%')) :
    pctLoop none (encChar S c ++ T) = c :: pctLoop none T := by
  rw [encChar]
  by_cases hS : S c
  · rw [if_pos hS]
    have h1 := hexDigit_facts (c.toNat / 16) (by omega)
    have h2 := hexDigit_facts (c.toNat % 16) (by omega)
    show pctLoop none ('%' :: _ :: _ :: T) = _
    rw [pctLoop, if_pos rfl, pctLoop, pctLoop, if_pos ⟨h1.1, h2.1⟩, h1.2.1, h2.2.1]
    have : 16 * (c.toNat / 16) + c.toNat % 16 = c.toNat := by omega
    rw [this, Char.ofNat_toNat]
  · rw [if_neg hS]
    show pctLoop none (c :: T) = _
    rw [pctLoop, if_neg hne]

theorem pctDecode_encList (S : Char → Bool) (l : List Char)
    (h : ∀ c ∈ l, c.toNat < 256 ∧ ¬ (c = '%')) :
    pctDecode (encList S l) = l := by
  rw [pctDecode]
  induction l with
  | nil => rfl
  | cons c cs ih =>
    rw [encList, pct_step_enc S c _ (h c (by simp)).1 (h c (by simp)).2,
      ih fun x hx => h x (List.mem_cons_of_mem c hx)]

theorem mem_encList_lt_128 (S : Char → Bool) (l : List Char)
    (hl : ∀ c ∈ l, c.toNat < 256)
    (hS : ∀ c, S c = false → c.toNat ≤ 0x7E) :
    ∀ x ∈ encList S l, x.toNat < 128 := by
  intro x hx
  rcases mem_encList_cases S l hl x hx with h | ⟨d, hd, h⟩ | h
  · rw [h]; decide
  · rw [h]
    exact (hexDigit_facts d hd).2.2.1
  · have := hS x h.2
    omega

theorem pathEncSet_bounds (c : Char) (h : pathEncSet c = false) :
    0x21 ≤ c.toNat ∧ c.toNat ≤ 0x7E := by
  rw [pathEncSet] at h
  simp only [decide_eq_false_iff_not] at h
  push_neg at h
  obtain ⟨h1, h2, -⟩ := h
  omega

theorem queryEncSet_bounds (c : Char) (h : queryEncSet c = false) :
    0x21 ≤ c.toNat ∧ c.toNat ≤ 0x7E := by
  rw [queryEncSet] at h
  simp only [decide_eq_false_iff_not] at h
  push_neg at h
  obtain ⟨h1, h2, -⟩ := h
  omega

theorem keyLe_refl (a : List Char) : keyLe a a = true := by
  induction a with
  | nil => rfl
  | cons c cs ih => rw [keyLe, if_neg (by omega), if_neg (by omega)]; exact ih

theorem keyLe_total (a b : List Char) : keyLe a b = true ∨ keyLe b a = true := by
  induction a generalizing b with
  | nil => left; rfl
  | cons c cs ih =>
    cases b with
    | nil => right; rfl
    | cons d ds =>
      by_cases h1 : c.toNat < d.toNat
      · left; rw [keyLe, if_pos h1]
      · by_cases h2 : d.toNat < c.toNat
        · right; rw [keyLe, if_pos h2]
        · rcases ih ds with h | h
          · left; rw [keyLe, if_neg h1, if_neg h2]; exact h
          · right; rw [keyLe, if_neg h2, if_neg h1]; exact h

theorem keyLe_trans (a b c : List Char) (hab : keyLe a b = true)
    (hbc : keyLe b c = true) : keyLe a c = true := by
  induction a generalizing b c with
  | nil => rfl
  | cons x xs ih =>
    cases b with
    | nil => cases hab
    | cons y ys =>
      cases c with
      | nil => cases hbc
      | cons z zs =>
        rw [keyLe] at hab hbc
        by_cases h1 : x.toNat < y.toNat
        · by_cases h2 : y.toNat < z.toNat
          · rw [keyLe, if_pos (by omega)]
          · rw [if_neg h2] at hbc
            by_cases h3 : z.toNat < y.toNat
            · rw [if_pos h3] at hbc; cases hbc
            · rw [keyLe, if_pos (by omega)]
        · rw [if_neg h1] at hab
          by_cases h4 : y.toNat < x.toNat
          · rw [if_pos h4] at hab; cases hab
          · rw [if_neg h4] at hab
            by_cases h2 : y.toNat < z.toNat
            · rw [keyLe, if_pos (by omega)]
            · rw [if_neg h2] at hbc
              by_cases h3 : z.toNat < y.toNat
              · rw [if_pos h3] at hbc; cases hbc
              · rw [if_neg h3] at hbc
                rw [keyLe, if_neg (by omega), if_neg (by omega)]
                exact ih ys zs hab hbc

theorem mem_insertPair (p x : QPair) (l : List QPair) :
    x ∈ insertPair p l ↔ x = p ∨ x ∈ l := by
  induction l with
  | nil => simp [insertPair]
  | cons q qs ih =>
    rw [insertPair]
    by_cases h : keyLe p.1 q.1 ∧ ¬ (keyLe q.1 p.1 = true)
    · rw [if_pos h]
      simp
    · rw [if_neg h]
      simp only [List.mem_cons, ih]
      tauto

theorem insertPair_pairwise (p : QPair) (l : List QPair)
    (hl : List.Pairwise (fun a b => keyLe a.1 b.1 = true) l) :
    List.Pairwise (fun a b => keyLe a.1 b.1 = true) (insertPair p l) := by
  induction l with
  | nil => simp [insertPair]
  | cons q qs ih =>
    rw [insertPair]
    by_cases h : keyLe p.1 q.1 ∧ ¬ (keyLe q.1 p.1 = true)
    · rw [if_pos h]
      refine List.Pairwise.cons ?_ hl
      intro b hb
      rcases List.mem_cons.mp hb with rfl | hb
      · exact h.1
      · exact keyLe_trans _ _ _ h.1 (List.rel_of_pairwise_cons hl hb)
    · rw [if_neg h]
      have hqp : keyLe q.1 p.1 = true := by
        rcases keyLe_total p.1 q.1 with h1 | h1
        · by_cases h2 : keyLe q.1 p.1 = true
          · exact h2
          · exact absurd ⟨h1, h2⟩ h
        · exact h1
      refine List.Pairwise.cons ?_ (ih hl.tail)
      intro b hb
      rcases (mem_insertPair p b qs).mp hb with rfl | hb
      · exact hqp
      · exact List.rel_of_pairwise_cons hl hb

theorem foldl_insert_pairwise (l acc : List QPair)
    (hacc : List.Pairwise (fun a b => keyLe a.1 b.1 = true) acc) :
    List.Pairwise (fun a b => keyLe a.1 b.1 = true)
      (l.foldl (fun acc p => insertPair p acc) acc) := by
  induction l generalizing acc with
  | nil => exact hacc
  | cons p ps ih => exact ih _ (insertPair_pairwise p acc hacc)

theorem sortPairs_pairwise (l : List QPair) :
    List.Pairwise (fun a b => keyLe a.1 b.1 = true) (sortPairs l) :=
  foldl_insert_pairwise l [] (List.Pairwise.nil)

theorem mem_foldl_insert (l acc : List QPair) (x : QPair) :
    x ∈ l.foldl (fun acc p => insertPair p acc) acc ↔ x ∈ acc ∨ x ∈ l := by
  induction l generalizing acc with
  | nil => simp
  | cons p ps ih =>
    rw [List.foldl_cons, ih]
    rw [mem_insertPair]
    simp only [List.mem_cons]
    tauto

theorem mem_sortPairs (l : List QPair) (x : QPair) :
    x ∈ sortPairs l ↔ x ∈ l := by
  rw [sortPairs, mem_foldl_insert]
  simp

theorem insertPair_append (p : QPair) (acc : List QPair)
    (hacc : ∀ q ∈ acc, keyLe q.1 p.1 = true) :
    insertPair p acc = acc ++ [p] := by
  induction acc with
  | nil => rfl
  | cons q qs ih =>
    rw [insertPair, if_neg (by
      intro hc
      exact hc.2 (hacc q (by simp))),
      ih fun x hx => hacc x (List.mem_cons_of_mem q hx)]
    rfl

theorem foldl_insert_of_sorted (l acc : List QPair)
    (hl : List.Pairwise (fun a b => keyLe a.1 b.1 = true) l)
    (hacc : ∀ q ∈ acc, ∀ p ∈ l, keyLe q.1 p.1 = true) :
    l.foldl (fun acc p => insertPair p acc) acc = acc ++ l := by
  induction l generalizing acc with
  | nil => simp
  | cons p ps ih =>
    rw [List.foldl_cons, insertPair_append p acc fun q hq => hacc q hq p (by simp),
      ih (acc ++ [p]) hl.tail ?_]
    · simp
    · intro q hq r hr
      rcases List.mem_append.mp hq with hq1 | hq2
      · exact hacc q hq1 r (List.mem_cons_of_mem p hr)
      · obtain rfl : q = p := by simpa using hq2
        exact List.rel_of_pairwise_cons hl hr

theorem sortPairs_eq_self (l : List QPair)
    (hl : List.Pairwise (fun a b => keyLe a.1 b.1 = true) l) :
    sortPairs l = l := by
  rw [sortPairs, foldl_insert_of_sorted l [] hl (by intro q hq; cases hq)]
  rfl

theorem digitsToNat_append_digit (ds : List Char) (d : Char) :
    digitsToNat (ds ++ [d]) = 10 * digitsToNat ds + (d.toNat - 48) := by
  rw [digitsToNat, digitsToNat, List.foldl_append]
  rfl

theorem isDigitChar_of_toNat (c : Char) (h1 : 48 ≤ c.toNat) (h2 : c.toNat ≤ 57) :
    isDigitChar c = true := by
  rw [isDigitChar]
  simp only [decide_eq_true_eq]
  exact ⟨(char_le_iff_toNat '0' c).mpr h1, (char_le_iff_toNat c '9').mpr h2⟩

theorem natDigitsFuel_spec (fuel : Nat) :
    ∀ n, n < fuel →
      digitsToNat (natDigitsFuel fuel n) = n ∧
      (∀ c ∈ natDigitsFuel fuel n, isDigitChar c = true) ∧
      natDigitsFuel fuel n ≠ [] := by
  induction fuel with
  | zero => intro n hn; omega
  | succ f ih =>
    intro n hn
    rw [natDigitsFuel]
    by_cases h : n < 10
    · rw [if_pos h]
      have ht : (hexDigitChar n).toNat = 48 + n := by
        rw [hexDigitChar, if_pos h]
        exact toNat_ofNat_small _ (by omega)
      refine ⟨?_, ?_, by simp⟩
      · rw [show ([hexDigitChar n] : List Char) = [] ++ [hexDigitChar n] from rfl,
          digitsToNat_append_digit, ht]
        simp only [digitsToNat, List.foldl_nil]
        omega
      · intro c hc
        have hc2 : c = hexDigitChar n := by simpa using hc
        subst hc2
        exact isDigitChar_of_toNat _ (by omega) (by omega)
    · rw [if_neg h]
      have hdiv : n / 10 < f := by
        have := Nat.div_lt_self (show 0 < n by omega) (show 1 < 10 by omega)
        omega
      obtain ⟨ih1, ih2, ih3⟩ := ih (n / 10) hdiv
      have hm : (hexDigitChar (n % 10)).toNat = 48 + n % 10 := by
        rw [hexDigitChar, if_pos (by omega)]
        exact toNat_ofNat_small _ (by omega)
      refine ⟨?_, ?_, by simp⟩
      · rw [digitsToNat_append_digit, ih1, hm]
        omega
      · intro c hc
        rcases List.mem_append.mp hc with hc1 | hc2
        · exact ih2 c hc1
        · have hc3 : c = hexDigitChar (n % 10) := by simpa using hc2
          subst hc3
          exact isDigitChar_of_toNat _ (by omega) (by omega)

theorem natDigits_spec (n : Nat) :
    digitsToNat (natDigits n) = n ∧
      (∀ c ∈ natDigits n, isDigitChar c = true) ∧ natDigits n ≠ [] :=
  natDigitsFuel_spec (n + 1) n (by omega)

theorem isDigitChar_bounds (c : Char) (h : isDigitChar c = true) :
    48 ≤ c.toNat ∧ c.toNat ≤ 57 := by
  rw [isDigitChar] at h
  simp only [decide_eq_true_eq] at h
  exact ⟨(char_le_iff_toNat '0' c).mp h.1, (char_le_iff_toNat c '9').mp h.2⟩

theorem splitAtFirst_snd_sat (p : Char → Bool) (l : List Char) (d : Char)
    (r : List Char) (h : (splitAtFirst p l).2 = some (d, r)) : p d = true := by
  induction l with
  | nil => cases h
  | cons a as ih =>
    rw [splitAtFirst] at h
    by_cases hp : p a
    · rw [if_pos hp] at h
      obtain ⟨rfl, -⟩ : a = d ∧ as = r := by simpa using h
      exact hp
    · rw [if_neg hp] at h
      exact ih h

theorem ascii_of_any_eq_false (l : List Char)
    (h : l.any (fun c => 0x80 ≤ c.toNat) = false) : ∀ c ∈ l, c.toNat < 128 := by
  intro c hc
  have := List.any_eq_false.mp h c hc
  simp only [decide_eq_true_eq] at this
  omega

theorem matchScheme_cases (l : List Char) (su : List Char × List Char)
    (h : matchScheme l = some su) :
    (su.1 = ("https".data) ∧ su.2 = l.drop 8) ∨
      (su.1 = ("http".data) ∧ su.2 = l.drop 7) := by
  rw [matchScheme] at h
  by_cases h1 : hasPrefixCI ("https://".data) l
  · rw [if_pos h1] at h
    left
    obtain rfl : (("https".data), l.drop 8) = su := by simpa using h
    exact ⟨rfl, rfl⟩
  · rw [if_neg h1] at h
    by_cases h2 : hasPrefixCI ("http://".data) l
    · rw [if_pos h2] at h
      right
      obtain rfl : (("http".data), l.drop 7) = su := by simpa using h
      exact ⟨rfl, rfl⟩
    · rw [if_neg h2] at h
      cases h

theorem parsePort_props (sch : List Char) (x : Option (Char × List Char))
    (port : Option Nat) (h : parsePort sch x = some port) :
    ∀ n, port = some n → n < 65536 ∧ isDefaultPort sch n = false := by
  intro n hn
  subst hn
  cases x with
  | none =>
    rw [parsePort] at h
    cases h
  | some y =>
    rw [parsePort] at h
    by_cases h1 : y.2.isEmpty
    · rw [if_pos h1] at h
      cases h
    · rw [if_neg h1] at h
      by_cases h2 : y.2.all isDigitChar
      · rw [if_pos h2] at h
        by_cases h3 : digitsToNat y.2 < 65536
        · rw [if_pos h3] at h
          by_cases h4 : isDefaultPort sch (digitsToNat y.2)
          · rw [if_pos h4] at h
            cases h
          · rw [if_neg h4] at h
            obtain rfl : digitsToNat y.2 = n := by simpa using h
            exact ⟨h3, by simpa using h4⟩
        · rw [if_neg h3] at h
          cases h
      · rw [if_neg h2] at h
        cases h

theorem isAuthEnd_eq_slash (c : Char) (h : isAuthEnd c = true)
    (h1 : ¬ (c = '#')) (h2 : ¬ (c = '?')) : c = '/' := by
  rw [isAuthEnd] at h
  simp only [decide_eq_true_eq] at h
  tauto

theorem parseAuthority_props (scheme auth : List Char)
    (hp : List Char × Option Nat) (h : parseAuthority scheme auth = some hp) :
    hp.1 ≠ [] ∧ hp.1.map asciiLower = hp.1 ∧
      (∀ c ∈ hp.1, forbiddenHost c = false) ∧
      (∀ n, hp.2 = some n → n < 65536 ∧ isDefaultPort scheme n = false) := by
  simp only [parseAuthority] at h
  by_cases h1 : auth.contains '@' = true
  · rw [if_pos h1] at h
    cases h
  · rw [if_neg h1] at h
    by_cases h2 : ((splitAtFirst (fun c => c = ':') auth).1.map asciiLower).isEmpty ∨
        ((splitAtFirst (fun c => c = ':') auth).1.map asciiLower).any forbiddenHost
    · rw [if_pos h2] at h
      cases h
    · rw [if_neg h2] at h
      push_neg at h2
      cases hpp : parsePort scheme (splitAtFirst (fun c => c = ':') auth).2 with
      | none =>
        rw [hpp] at h
        cases h
      | some port =>
        rw [hpp] at h
        have hpe : hp = ((splitAtFirst (fun c => c = ':') auth).1.map asciiLower, port) := by
          simpa using h.symm
        subst hpe
        have h2a := Bool.eq_false_iff.mpr h2.1
        have h2b := Bool.eq_false_iff.mpr h2.2
        refine ⟨?_, map_asciiLower_idem _, ?_, parsePort_props scheme _ port hpp⟩
        · show List.map asciiLower _ ≠ []
          intro he
          rw [he] at h2a
          simp at h2a
        · show ∀ c ∈ List.map asciiLower _, forbiddenHost c = false
          intro c hc
          exact Bool.eq_false_iff.mpr (List.any_eq_false.mp h2b c hc)

theorem encQuery_chars (l : List Char) (hl : ∀ c ∈ l, c.toNat < 256) :
    ∀ x ∈ encList queryEncSet l, queryEncSet x = false := by
  intro x hx
  rcases mem_encList_cases _ l hl x hx with h | ⟨d, hd, h⟩ | h
  · rw [h]; decide
  · rw [h]; exact (hexDigit_facts d hd).2.2.2.2.1
  · exact h.2

theorem encPath_chars (l : List Char) (hl : ∀ c ∈ l, c.toNat < 256) :
    ∀ x ∈ encList pathEncSet l, pathEncSet x = false := by
  intro x hx
  rcases mem_encList_cases _ l hl x hx with h | ⟨d, hd, h⟩ | h
  · rw [h]; decide
  · rw [h]; exact (hexDigit_facts d hd).2.2.2.1
  · exact h.2

theorem parseAfterAuth_props (after : Option (Char × List Char))
    (hsat : ∀ x, after = some x → isAuthEnd x.1 = true ∧ x.1.toNat < 256 ∧
      ∀ c ∈ x.2, c.toNat < 256) :
    (parseAfterAuth after).1 ≠ [] ∧ (parseAfterAuth after).1.head? = some '/' ∧
      (∀ c ∈ (parseAfterAuth after).1, pathEncSet c = false) ∧
      (∀ q, (parseAfterAuth after).2.1 = some q →
        ∀ c ∈ q, queryEncSet c = false) := by
  cases after with
  | none =>
    refine ⟨by simp [parseAfterAuth], by simp [parseAfterAuth], ?_, ?_⟩
    · intro c hc
      have : c = '/' := by simpa [parseAfterAuth] using hc
      rw [this]; decide
    · intro q hq
      simp [parseAfterAuth] at hq
  | some d =>
    obtain ⟨hend, hdlt, hrest⟩ := hsat d rfl
    rw [parseAfterAuth]
    by_cases h1 : d.1 = '#'
    · rw [if_pos h1]
      refine ⟨by simp, by simp, ?_, ?_⟩
      · intro c hc
        have : c = '/' := by simpa using hc
        rw [this]; decide
      · intro q hq
        simp at hq
    · rw [if_neg h1]
      by_cases h2 : d.1 = '?'
      · rw [if_pos h2]
        refine ⟨by simp, by simp, ?_, ?_⟩
        · intro c hc
          have : c = '/' := by simpa using hc
          rw [this]; decide
        · intro q hq
          obtain rfl : encList queryEncSet
              (splitAtFirst (fun c => c = '#') d.2).1 = q := by simpa using hq
          exact encQuery_chars _
            (fun c hc => hrest c (splitAtFirst_fst_subset _ _ c hc))
      · rw [if_neg h2]
        have hslash : d.1 = '/' := isAuthEnd_eq_slash d.1 hend h1 h2
        have hbf1 : (splitAtFirst (fun c => c = '#') (d.1 :: d.2)).1 =
            d.1 :: (splitAtFirst (fun c => c = '#') d.2).1 := by
          rw [splitAtFirst, if_neg (by simpa using h1)]
        have hbf1lt : ∀ c ∈ (splitAtFirst (fun c => c = '#') (d.1 :: d.2)).1,
            c.toNat < 256 := by
          intro c hc
          rcases List.mem_cons.mp
            (splitAtFirst_fst_subset (fun c => c = '#') (d.1 :: d.2) c hc) with rfl | hc2
          · exact hdlt
          · exact hrest c hc2
        have hpq1 : (splitAtFirst (fun c => c = '?')
            (splitAtFirst (fun c => c = '#') (d.1 :: d.2)).1).1 =
            '/' :: (splitAtFirst (fun c => c = '?')
              (splitAtFirst (fun c => c = '#') d.2).1).1 := by
          rw [hbf1, hslash, splitAtFirst, if_neg (by simp)]
        refine ⟨?_, ?_, ?_, ?_⟩
        · show encList pathEncSet _ ≠ []
          rw [hpq1, encList, encChar, if_neg (by decide)]
          simp
        · show (encList pathEncSet _).head? = some '/'
          rw [hpq1, encList, encChar, if_neg (by decide)]
          rfl
        · show ∀ c ∈ encList pathEncSet _, pathEncSet c = false
          exact encPath_chars _ fun c hc =>
            hbf1lt c (splitAtFirst_fst_subset _ _ c hc)
        · intro q hq
          simp only at hq
          cases hx : (splitAtFirst (fun c => c = '?')
              (splitAtFirst (fun c => c = '#') (d.1 :: d.2)).1).2 with
          | none =>
            rw [hx] at hq
            cases hq
          | some x =>
            rw [hx] at hq
            obtain rfl : encList queryEncSet x.2 = q := by simpa using hq
            have hx2 := (splitAtFirst_snd_subset _ _ x.1 x.2 (by rw [hx])).2
            exact encQuery_chars _ fun c hc => hbf1lt c (hx2 c hc)

theorem parseURL_props (l : List Char) (u : URLRec) (h : parseURL l = some u) :
    CanonProps u := by
  simp only [parseURL] at h
  by_cases hA : l.any (fun c => 0x80 ≤ c.toNat) = true
  · rw [if_pos hA] at h
    cases h
  · rw [if_neg hA] at h
    have hAl := ascii_of_any_eq_false l (Bool.eq_false_iff.mpr hA)
    cases hms : matchScheme l with
    | none =>
      rw [hms] at h
      cases h
    | some su =>
      rw [hms] at h
      have hsub2 : ∀ c ∈ su.2, c.toNat < 256 := by
        intro c hc
        rcases matchScheme_cases l su hms with ⟨-, h8⟩ | ⟨-, h8⟩ <;>
          · rw [h8] at hc
            have := hAl c (List.mem_of_mem_drop hc)
            omega
      replace h : (match parseAuthority su.1 (splitAtFirst isAuthEnd su.2).1 with
          | none => none
          | some hp =>
            some (⟨su.1, hp.1, hp.2,
              (parseAfterAuth (splitAtFirst isAuthEnd su.2).2).1,
              (parseAfterAuth (splitAtFirst isAuthEnd su.2).2).2.1,
              (parseAfterAuth (splitAtFirst isAuthEnd su.2).2).2.2⟩ : URLRec)) =
          some u := h
      cases hpa : parseAuthority su.1 (splitAtFirst isAuthEnd su.2).1 with
      | none =>
        rw [hpa] at h
        cases h
      | some hp =>
        rw [hpa] at h
        have hu : u = ⟨su.1, hp.1, hp.2,
            (parseAfterAuth (splitAtFirst isAuthEnd su.2).2).1,
            (parseAfterAuth (splitAtFirst isAuthEnd su.2).2).2.1,
            (parseAfterAuth (splitAtFirst isAuthEnd su.2).2).2.2⟩ := by
          simpa using h.symm
        subst hu
        obtain ⟨ha1, ha2, ha3, ha4⟩ := parseAuthority_props su.1 _ hp hpa
        have hsat : ∀ x, (splitAtFirst isAuthEnd su.2).2 = some x →
            isAuthEnd x.1 = true ∧ x.1.toNat < 256 ∧ ∀ c ∈ x.2, c.toNat < 256 := by
          intro x hx
          obtain ⟨hd, hr⟩ := splitAtFirst_snd_subset isAuthEnd su.2 x.1 x.2 (by
            rw [hx])
          exact ⟨splitAtFirst_snd_sat isAuthEnd su.2 x.1 x.2 (by rw [hx]),
            hsub2 x.1 hd, fun c hc => hsub2 c (hr c hc)⟩
        obtain ⟨hb1, hb2, hb3, hb4⟩ := parseAfterAuth_props _ hsat
        refine ⟨?_, ⟨ha1, ha2, ha3⟩, ha4, ⟨hb1, hb2, hb3⟩, hb4⟩
        rcases matchScheme_cases l su hms with ⟨hs, -⟩ | ⟨hs, -⟩
        · left; exact hs
        · right; exact hs

theorem forbidden_false_facts (c : Char) (h : forbiddenHost c = false) :
    0x21 ≤ c.toNat ∧ c.toNat ≤ 0x7E ∧ ¬ (c = '#') ∧ ¬ (c = '/') ∧
      ¬ (c = ':') ∧ ¬ (c = '?') ∧ ¬ (c = '@') := by
  rw [forbiddenHost] at h
  simp only [decide_eq_false_iff_not] at h
  push_neg at h
  obtain ⟨h1, h2, h3, h4, h5, h6, h7, h8, h9, h10, -⟩ := h
  exact ⟨by omega, by omega, h3, h5, h6, h9, h10⟩

theorem pathEnc_false_facts (c : Char) (h : pathEncSet c = false) :
    ¬ (c = '#') ∧ ¬ (c = '?') := by
  rw [pathEncSet] at h
  simp only [decide_eq_false_iff_not] at h
  push_neg at h
  obtain ⟨-, -, -, h4, -, -, h7, -⟩ := h
  exact ⟨h4, h7⟩

theorem queryEnc_false_facts (c : Char) (h : queryEncSet c = false) :
    ¬ (c = '#') := by
  rw [queryEncSet] at h
  simp only [decide_eq_false_iff_not] at h
  push_neg at h
  obtain ⟨-, -, -, h4, -⟩ := h
  exact h4

theorem char_ne_iff_toNat (c d : Char) : c ≠ d ↔ c.toNat ≠ d.toNat := by
  rw [Ne, Ne, char_eq_iff_toNat]

theorem isAuthEnd_false_of_forbidden (c : Char) (h : forbiddenHost c = false) :
    isAuthEnd c = false := by
  obtain ⟨-, -, h3, h4, -, h6, -⟩ := forbidden_false_facts c h
  rw [isAuthEnd]
  simp only [decide_eq_false_iff_not]
  push_neg
  exact ⟨h4, h6, h3⟩

theorem digit_char_facts (c : Char) (h : isDigitChar c = true) :
    isAuthEnd c = false ∧ ¬ (c = '@') ∧ ¬ (c = ':') := by
  obtain ⟨h1, h2⟩ := isDigitChar_bounds c h
  have e1 : ('/' : Char).toNat = 47 := rfl
  have e2 : ('?' : Char).toNat = 63 := rfl
  have e3 : ('#' : Char).toNat = 35 := rfl
  have e4 : ('@' : Char).toNat = 64 := rfl
  have e5 : (':' : Char).toNat = 58 := rfl
  refine ⟨?_, ?_, ?_⟩
  · rw [isAuthEnd]
    simp only [decide_eq_false_iff_not]
    push_neg
    refine ⟨?_, ?_, ?_⟩ <;>
      · rw [char_ne_iff_toNat]
        omega
  · exact (char_ne_iff_toNat c '@').mpr (by omega)
  · exact (char_ne_iff_toNat c ':').mpr (by omega)

theorem contains_eq_false_of_not_mem (l : List Char) (a : Char)
    (h : ∀ x ∈ l, ¬ (x = a)) : l.contains a = false := by
  induction l with
  | nil => rfl
  | cons b bs ih =>
    have hba : ¬ (a = b) := fun he => h b (by simp) he.symm
    simp only [List.contains_cons]
    rw [ih fun x hx => h x (List.mem_cons_of_mem b hx)]
    simp [hba]

theorem hasPrefixCI_self_append (p rest : List Char)
    (hlow : p.map asciiLower = p) : hasPrefixCI p (p ++ rest) = true := by
  rw [hasPrefixCI, List.take_left, hlow]
  simp

theorem hasPrefixCI_https_of_http (rest : List Char) (h0 : rest ≠ []) :
    hasPrefixCI ("https://".data) (("http://".data) ++ rest) = false := by
  obtain ⟨c0, rest1, rfl⟩ : ∃ c0 r, rest = c0 :: r := by
    cases rest with
    | nil => exact absurd rfl h0
    | cons a b => exact ⟨a, b, rfl⟩
  rw [hasPrefixCI]
  apply decide_eq_false
  intro heq
  have heq2 : ('h' :: 't' :: 't' :: 'p' :: ':' :: '/' :: '/' :: [asciiLower c0]) =
      ('h' :: 't' :: 't' :: 'p' :: 's' :: ':' :: '/' :: ['/']) := heq
  simp at heq2

theorem matchScheme_prefix (sch rest : List Char)
    (hs : sch = ("https".data) ∨ sch = ("http".data)) (h0 : rest ≠ []) :
    matchScheme (sch ++ ':' :: '/' :: '/' :: rest) = some (sch, rest) := by
  rcases hs with rfl | rfl
  · rw [show ("https".data) ++ ':' :: '/' :: '/' :: rest =
      ("https://".data) ++ rest from rfl]
    rw [matchScheme, if_pos (hasPrefixCI_self_append _ rest (by decide))]
    rw [show (8 : Nat) = ("https://".data).length from rfl, List.drop_left]
  · rw [show ("http".data) ++ ':' :: '/' :: '/' :: rest =
      ("http://".data) ++ rest from rfl]
    rw [matchScheme, if_neg (by rw [hasPrefixCI_https_of_http rest h0]; simp),
      if_pos (hasPrefixCI_self_append _ rest (by decide))]
    rw [show (7 : Nat) = ("http://".data).length from rfl, List.drop_left]

theorem parseAuthority_serialize (scheme host : List Char) (port : Option Nat)
    (hh1 : host ≠ []) (hh2 : host.map asciiLower = host)
    (hh3 : ∀ c ∈ host, forbiddenHost c = false)
    (hp : ∀ n, port = some n → n < 65536 ∧ isDefaultPort scheme n = false) :
    parseAuthority scheme (host ++ portStr port) = some (host, port) := by
  have hhost_colon : ∀ c ∈ host, (fun c => decide (c = ':')) c = false := by
    intro c hc
    exact decide_eq_false (forbidden_false_facts c (hh3 c hc)).2.2.2.2.1
  have hat : (host ++ portStr port).contains '@' = false := by
    apply contains_eq_false_of_not_mem
    intro x hx
    rcases List.mem_append.mp hx with hx1 | hx2
    · exact (forbidden_false_facts x (hh3 x hx1)).2.2.2.2.2.2
    · cases hport : port with
      | none => rw [hport] at hx2; cases hx2
      | some n =>
        rw [hport] at hx2
        rcases List.mem_cons.mp hx2 with rfl | hx3
        · decide
        · exact (digit_char_facts x ((natDigits_spec n).2.1 x hx3)).2.1
  simp only [parseAuthority]
  rw [if_neg (by rw [hat]; simp)]
  cases hport : port with
  | none =>
    rw [portStr, List.append_nil, splitAtFirst_no_hit _ host hhost_colon]
    rw [show ((host, (none : Option (Char × List Char))).1.map asciiLower) =
      host from by rw [hh2]]
    rw [if_neg (by
      push_neg
      refine ⟨by simp [List.isEmpty_iff, hh1], ?_⟩
      intro hcon
      rw [List.any_eq_true] at hcon
      obtain ⟨c, hc, hcf⟩ := hcon
      rw [hh3 c hc] at hcf
      cases hcf)]
    rfl
  | some n =>
    rw [portStr, splitAtFirst_hit (fun c => c = ':') host (natDigits n) ':'
      hhost_colon (by simp)]
    rw [show ((host, some (':', natDigits n)).1.map asciiLower) = host from by
      rw [hh2]]
    rw [if_neg (by
      push_neg
      refine ⟨by simp [List.isEmpty_iff, hh1], ?_⟩
      intro hcon
      rw [List.any_eq_true] at hcon
      obtain ⟨c, hc, hcf⟩ := hcon
      rw [hh3 c hc] at hcf
      cases hcf)]
    obtain ⟨hd1, hd2, hd3⟩ := natDigits_spec n
    obtain ⟨hn1, hn2⟩ := hp n hport
    rw [show ((host, some (':', natDigits n)).2) = some (':', natDigits n) from rfl]
    rw [parsePort, if_neg (by simp [List.isEmpty_iff, hd3]),
      if_pos (by rw [List.all_eq_true]; intro c hc; exact hd2 c hc)]
    rw [hd1, if_pos hn1, hn2]
    rfl

theorem parseAfterAuth_serialize (pt : List Char) (q : Option (List Char))
    (hpath : ∀ c ∈ pt, pathEncSet c = false)
    (hq : ∀ x, q = some x → ∀ c ∈ x, queryEncSet c = false) :
    parseAfterAuth (some ('/', pt ++ queryStr q)) = ('/' :: pt, q, none) := by
  have hsl : ¬ (('/' : Char) = '#') := by decide
  have hsl2 : ¬ (('/' : Char) = '?') := by decide
  have hnohash : ∀ c ∈ '/' :: (pt ++ queryStr q),
      (fun c => decide (c = '#')) c = false := by
    intro c hc
    rcases List.mem_cons.mp hc with rfl | hc2
    · decide
    rcases List.mem_append.mp hc2 with hc3 | hc4
    · exact decide_eq_false (pathEnc_false_facts c (hpath c hc3)).1
    · cases hqv : q with
      | none => rw [hqv] at hc4; cases hc4
      | some x =>
        rw [hqv] at hc4
        rcases List.mem_cons.mp hc4 with rfl | hc5
        · decide
        · exact decide_eq_false (queryEnc_false_facts c (hq x hqv c hc5))
  have hnoq : ∀ c ∈ '/' :: pt, (fun c => decide (c = '?')) c = false := by
    intro c hc
    rcases List.mem_cons.mp hc with rfl | hc2
    · decide
    · exact decide_eq_false (pathEnc_false_facts c (hpath c hc2)).2
  simp only [parseAfterAuth]
  rw [if_neg (show ¬ (('/', pt ++ queryStr q).1 = '#') from hsl),
    if_neg (show ¬ (('/', pt ++ queryStr q).1 = '?') from hsl2)]
  rw [show (('/', pt ++ queryStr q).1 :: ('/', pt ++ queryStr q).2) =
    '/' :: (pt ++ queryStr q) from rfl]
  rw [splitAtFirst_no_hit _ _ hnohash]
  cases hqv : q with
  | none =>
    rw [show queryStr (none : Option (List Char)) = [] from rfl, List.append_nil]
    rw [show (('/' :: pt, (none : Option (Char × List Char))).1) =
      '/' :: pt from rfl]
    rw [splitAtFirst_no_hit _ _ hnoq]
    rw [encList_eq_self _ _ (by
      intro c hc
      rcases List.mem_cons.mp hc with rfl | hc2
      · decide
      · exact hpath c hc2)]
    rfl
  | some x =>
    rw [show queryStr (some x) = '?' :: x from rfl]
    rw [show (('/' :: (pt ++ '?' :: x),
      (none : Option (Char × List Char))).1) = '/' :: pt ++ '?' :: x from rfl]
    rw [splitAtFirst_hit (fun c => c = '?') ('/' :: pt) x '?' hnoq (by decide)]
    show (encList pathEncSet ('/' :: pt), some (encList queryEncSet x),
      (none : Option (List Char))) = ('/' :: pt, some x, none)
    rw [encList_eq_self _ _ (by
      intro c hc
      rcases List.mem_cons.mp hc with rfl | hc2
      · decide
      · exact hpath c hc2)]
    rw [encList_eq_self _ _ (hq x hqv)]

theorem serialize_ascii (u : URLRec) (hc : CanonProps u) (hf : u.frag = none) :
    ∀ c ∈ serializeURL u, 0x21 ≤ c.toNat ∧ c.toNat ≤ 0x7E := by
  obtain ⟨hs, ⟨hh1, hh2, hh3⟩, hpo, ⟨hp1, hp2, hp3⟩, hq⟩ := hc
  have hschemeA : ∀ c ∈ ("https".data), 0x21 ≤ c.toNat ∧ c.toNat ≤ 0x7E := by decide
  have hschemeB : ∀ c ∈ ("http".data), 0x21 ≤ c.toNat ∧ c.toNat ≤ 0x7E := by decide
  intro c hcm
  rw [serializeURL] at hcm
  rcases List.mem_append.mp hcm with hc1 | hcf
  swap
  · rw [hf] at hcf
    simp [fragStr] at hcf
  rcases List.mem_append.mp hc1 with hc2 | hcq
  swap
  · cases hqv : u.query with
    | none => rw [hqv] at hcq; simp [queryStr] at hcq
    | some x =>
      rw [hqv] at hcq
      rcases List.mem_cons.mp hcq with rfl | hc8
      · decide
      · exact queryEncSet_bounds c (hq x hqv c hc8)
  rcases List.mem_append.mp hc2 with hc3 | hcp
  swap
  · exact pathEncSet_bounds c (hp3 c hcp)
  rcases List.mem_append.mp hc3 with hc4 | hcn
  swap
  · cases hpv : u.port with
    | none => rw [hpv] at hcn; simp [portStr] at hcn
    | some n =>
      rw [hpv] at hcn
      rcases List.mem_cons.mp hcn with rfl | hc12
      · decide
      · have := isDigitChar_bounds c ((natDigits_spec n).2.1 c hc12)
        omega
  rcases List.mem_append.mp hc4 with hc5 | hc6
  · rcases hs with hsv | hsv <;> rw [hsv] at hc5
    · exact hschemeA c hc5
    · exact hschemeB c hc5
  · rcases List.mem_cons.mp hc6 with rfl | hc7
    · decide
    rcases List.mem_cons.mp hc7 with rfl | hc8
    · decide
    rcases List.mem_cons.mp hc8 with rfl | hc9
    · decide
    · exact ⟨(forbidden_false_facts c (hh3 c hc9)).1,
        (forbidden_false_facts c (hh3 c hc9)).2.1⟩

theorem parse_serialize (u : URLRec) (hc : CanonProps u) (hf : u.frag = none) :
    parseURL (serializeURL u) = some u := by
  have hasc := serialize_ascii u hc hf
  obtain ⟨hs, ⟨hh1, hh2, hh3⟩, hpo, ⟨hp1, hp2, hp3⟩, hq⟩ := hc
  obtain ⟨pt, hpt⟩ : ∃ pt, u.path = '/' :: pt := by
    cases hpe : u.path with
    | nil => exact absurd hpe hp1
    | cons a b =>
      rw [hpe] at hp2
      have hab : a = '/' := by simpa using hp2
      exact ⟨b, by rw [hab]⟩
  have hser : serializeURL u = u.scheme ++ ':' :: '/' :: '/' ::
      ((u.host ++ portStr u.port) ++ '/' :: (pt ++ queryStr u.query)) := by
    rw [serializeURL, hf, hpt]
    simp [fragStr, List.append_assoc]
  have hascii : (serializeURL u).any (fun c => 0x80 ≤ c.toNat) = false := by
    rw [List.any_eq_false]
    intro c hcm
    intro hcon
    rw [decide_eq_true_eq] at hcon
    have := hasc c hcm
    omega
  have hms := matchScheme_prefix u.scheme
    ((u.host ++ portStr u.port) ++ '/' :: (pt ++ queryStr u.query)) hs (by simp)
  have hae : ∀ c ∈ u.host ++ portStr u.port, isAuthEnd c = false := by
    intro c hcm
    rcases List.mem_append.mp hcm with hc1 | hc2
    · exact isAuthEnd_false_of_forbidden c (hh3 c hc1)
    · cases hpv : u.port with
      | none => rw [hpv] at hc2; cases hc2
      | some n =>
        rw [hpv] at hc2
        rcases List.mem_cons.mp hc2 with rfl | hc3
        · decide
        · exact (digit_char_facts c ((natDigits_spec n).2.1 c hc3)).1
  have hsp := splitAtFirst_hit isAuthEnd (u.host ++ portStr u.port)
    (pt ++ queryStr u.query) '/' hae (by decide)
  have hpa := parseAuthority_serialize u.scheme u.host u.port hh1 hh2 hh3 hpo
  have haa := parseAfterAuth_serialize pt u.query
    (fun c hcm => hp3 c (by rw [hpt]; exact List.mem_cons_of_mem '/' hcm)) hq
  rw [hser] at hascii
  rw [hser, parseURL, if_neg (by rw [hascii]; simp)]
  rw [hms]
  simp only [hsp, hpa, haa]
  rw [← hpt, ← hf]

theorem goodQChar_facts (c : Char) (h : goodQChar c = true) :
    c.toNat < 256 ∧ ¬ (c = '&') ∧ ¬ (c = '=') ∧ ¬ (c = '+') ∧ ¬ (c = '%') := by
  rw [goodQChar] at h
  simp only [decide_eq_true_eq] at h
  exact h

theorem enc_seg_chars (x : List Char) (hx : ∀ c ∈ x, goodQChar c = true) :
    ∀ c ∈ encList queryEncSet x,
      ¬ (c = '&') ∧ ¬ (c = '=') ∧ ¬ (c = '+') := by
  intro c hc
  rcases mem_encList_cases _ x (fun d hd => (goodQChar_facts d (hx d hd)).1) c hc with
    h | ⟨d, hd, h⟩ | h
  · rw [h]
    exact ⟨by decide, by decide, by decide⟩
  · rw [h]
    obtain ⟨-, -, -, -, -, h6, h7, h8, -⟩ := hexDigit_facts d hd
    exact ⟨h6, h7, h8⟩
  · obtain ⟨-, h2, h3, h4, -⟩ := goodQChar_facts _ (hx _ h.1)
    exact ⟨h2, h3, h4⟩

theorem pair_decode (x : List Char) (hx : ∀ c ∈ x, goodQChar c = true) :
    pctDecode (plusToSpace (encList queryEncSet x)) = x := by
  rw [plusToSpace_eq_self _ (fun c hc => (enc_seg_chars x hx c hc).2.2),
    pctDecode_encList _ _ (fun c hc =>
      ⟨(goodQChar_facts c (hx c hc)).1, (goodQChar_facts c (hx c hc)).2.2.2.2⟩)]

theorem encList_cons_unenc (S : Char → Bool) (c : Char) (x : List Char)
    (h : S c = false) : encList S (c :: x) = c :: encList S x := by
  rw [encList, encChar, if_neg (by simp [h])]
  rfl

theorem segF_eval (k v : List Char) (hk : ∀ c ∈ k, goodQChar c = true)
    (hv : ∀ c ∈ v, goodQChar c = true) :
    (if (encList queryEncSet (k ++ '=' :: v)).isEmpty then (none : Option QPair)
      else
        let s := splitAtFirst (fun c => c = '=') (encList queryEncSet (k ++ '=' :: v))
        let w := match s.2 with
          | none => []
          | some x => x.2
        some (pctDecode (plusToSpace s.1), pctDecode (plusToSpace w)))
      = some (k, v) := by
  have henc : encList queryEncSet (k ++ '=' :: v) =
      encList queryEncSet k ++ '=' :: encList queryEncSet v := by
    rw [encList_append, encList_cons_unenc _ _ _ (by decide)]
  have hnoeq : ∀ c ∈ encList queryEncSet k,
      (fun c => decide (c = '=')) c = false :=
    fun c hc => decide_eq_false (enc_seg_chars k hk c hc).2.1
  show (if (encList queryEncSet (k ++ '=' :: v)).isEmpty then (none : Option QPair)
    else
      some (pctDecode (plusToSpace
          (splitAtFirst (fun c => c = '=') (encList queryEncSet (k ++ '=' :: v))).1),
        pctDecode (plusToSpace
          (match (splitAtFirst (fun c => c = '=')
              (encList queryEncSet (k ++ '=' :: v))).2 with
            | none => []
            | some x => x.2)))) = some (k, v)
  rw [henc, if_neg (by simp)]
  rw [splitAtFirst_hit (fun c => c = '=') (encList queryEncSet k)
    (encList queryEncSet v) '=' hnoeq (by decide)]
  show some (pctDecode (plusToSpace (encList queryEncSet k)),
    pctDecode (plusToSpace (encList queryEncSet v))) = some (k, v)
  rw [pair_decode k hk, pair_decode v hv]

theorem goodPair_parts (p : QPair) (h : goodPair p = true) :
    (∀ c ∈ p.1, goodQChar c = true) ∧ ∀ c ∈ p.2, goodQChar c = true := by
  rw [goodPair] at h
  simp only [decide_eq_true_eq] at h
  exact ⟨List.all_eq_true.mp h.1, List.all_eq_true.mp h.2⟩

theorem parsePairs_enc_join :
    ∀ l : List QPair, (∀ p ∈ l, goodPair p = true) →
      parsePairs (encList queryEncSet (joinPairs l)) = l := by
  intro l
  induction l with
  | nil => intro _; rfl
  | cons p ps ih =>
    intro hl
    obtain ⟨hpk, hpv⟩ := goodPair_parts p (hl p (by simp))
    cases ps with
    | nil =>
      rw [show joinPairs [p] = p.1 ++ '=' :: p.2 from rfl]
      rw [parsePairs, splitAmp_no_amp _ (by
        intro c hc
        rw [show encList queryEncSet (p.1 ++ '=' :: p.2) =
          encList queryEncSet p.1 ++ '=' :: encList queryEncSet p.2 from by
            rw [encList_append, encList_cons_unenc _ _ _ (by decide)]] at hc
        rcases List.mem_append.mp hc with h1 | h2
        · exact (enc_seg_chars p.1 hpk c h1).1
        · rcases List.mem_cons.mp h2 with rfl | h3
          · decide
          · exact (enc_seg_chars p.2 hpv c h3).1)]
      rw [List.filterMap_cons, segF_eval p.1 p.2 hpk hpv]
      rfl
    | cons q qs =>
      have hjoin : joinPairs (p :: q :: qs) =
          (p.1 ++ '=' :: p.2) ++ '&' :: joinPairs (q :: qs) := rfl
      have hencj : encList queryEncSet (joinPairs (p :: q :: qs)) =
          encList queryEncSet (p.1 ++ '=' :: p.2) ++ '&' ::
            encList queryEncSet (joinPairs (q :: qs)) := by
        rw [hjoin, encList_append, encList_cons_unenc _ _ _ (by decide)]
      have hnoamp1 : ∀ c ∈ encList queryEncSet (p.1 ++ '=' :: p.2), ¬ (c = '&') := by
        intro c hc
        rw [show encList queryEncSet (p.1 ++ '=' :: p.2) =
          encList queryEncSet p.1 ++ '=' :: encList queryEncSet p.2 from by
            rw [encList_append, encList_cons_unenc _ _ _ (by decide)]] at hc
        rcases List.mem_append.mp hc with h1 | h2
        · exact (enc_seg_chars p.1 hpk c h1).1
        · rcases List.mem_cons.mp h2 with rfl | h3
          · decide
          · exact (enc_seg_chars p.2 hpv c h3).1
      rw [hencj, parsePairs, splitAmp_append_amp _ _ hnoamp1, List.filterMap_cons,
        segF_eval p.1 p.2 hpk hpv]
      show (p.1, p.2) :: parsePairs (encList queryEncSet (joinPairs (q :: qs))) =
        p :: q :: qs
      rw [ih fun x hx => hl x (List.mem_cons_of_mem p hx)]

theorem stripDefaultPort_eq_self (x : URLRec)
    (h : ∀ n, x.port = some n → isDefaultPort x.scheme n = false) :
    stripDefaultPortStep x = x := by
  rw [stripDefaultPortStep]
  apply if_neg
  rintro (⟨h1, h2⟩ | ⟨h1, h2⟩)
  · have := h 80 h2
    rw [isDefaultPort] at this
    simp [h1] at this
  · have := h 443 h2
    rw [isDefaultPort] at this
    simp [h1] at this

theorem dropSlash_scheme (x : URLRec) : (dropSlashStep x).scheme = x.scheme := by
  rw [dropSlashStep]; split <;> rfl

theorem dropSlash_host (x : URLRec) : (dropSlashStep x).host = x.host := by
  rw [dropSlashStep]; split <;> rfl

theorem dropSlash_port (x : URLRec) : (dropSlashStep x).port = x.port := by
  rw [dropSlashStep]; split <;> rfl

theorem dropSlash_query (x : URLRec) : (dropSlashStep x).query = x.query := by
  rw [dropSlashStep]; split <;> rfl

theorem dropSlash_frag (x : URLRec) : (dropSlashStep x).frag = x.frag := by
  rw [dropSlashStep]; split <;> rfl

theorem mem_dropLast_mem (l : List Char) (c : Char) (h : c ∈ l.dropLast) :
    c ∈ l := by
  induction l with
  | nil => cases h
  | cons a as ih =>
    cases as with
    | nil => cases h
    | cons b bs =>
      rcases List.mem_cons.mp h with rfl | h2
      · exact List.mem_cons_self c _
      · exact List.mem_cons_of_mem a (ih h2)

theorem dropSlash_path_props (x : URLRec) (h1 : x.path ≠ [])
    (h2 : x.path.head? = some '/') (h3 : ∀ c ∈ x.path, pathEncSet c = false) :
    (dropSlashStep x).path ≠ [] ∧ (dropSlashStep x).path.head? = some '/' ∧
      ∀ c ∈ (dropSlashStep x).path, pathEncSet c = false := by
  rw [dropSlashStep]
  split
  case isTrue hcond =>
    obtain ⟨pt, hpt⟩ : ∃ pt, x.path = '/' :: pt := by
      cases hpe : x.path with
      | nil => exact absurd hpe h1
      | cons a b =>
        rw [hpe] at h2
        have hab : a = '/' := by simpa using h2
        exact ⟨b, by rw [hab]⟩
    cases hptv : pt with
    | nil =>
      rw [hptv] at hpt
      exact absurd hpt (by simpa using hcond.1)
    | cons a b =>
      rw [hpt, hptv]
      show ('/' :: (a :: b).dropLast) ≠ [] ∧
        ('/' :: (a :: b).dropLast).head? = some '/' ∧
        ∀ c ∈ '/' :: (a :: b).dropLast, pathEncSet c = false
      refine ⟨by simp, by simp, ?_⟩
      intro c hc
      rcases List.mem_cons.mp hc with rfl | hc2
      · exact h3 '/' (by rw [hpt]; simp)
      · exact h3 c (by
          rw [hpt, hptv]
          exact List.mem_cons_of_mem '/' (mem_dropLast_mem _ c hc2))
  case isFalse hcond =>
    exact ⟨h1, h2, h3⟩

theorem joinPairs_chars :
    ∀ l : List QPair, (∀ p ∈ l, goodPair p = true) →
      ∀ c ∈ joinPairs l, c.toNat < 256 := by
  intro l
  induction l with
  | nil => intro _ c hc; cases hc
  | cons p ps ih =>
    intro hl c hc
    obtain ⟨hpk, hpv⟩ := goodPair_parts p (hl p (by simp))
    cases ps with
    | nil =>
      rw [show joinPairs [p] = p.1 ++ '=' :: p.2 from rfl] at hc
      rcases List.mem_append.mp hc with h1 | h2
      · exact (goodQChar_facts c (hpk c h1)).1
      · rcases List.mem_cons.mp h2 with rfl | h3
        · decide
        · exact (goodQChar_facts c (hpv c h3)).1
    | cons q qs =>
      rw [show joinPairs (p :: q :: qs) =
        (p.1 ++ '=' :: p.2) ++ '&' :: joinPairs (q :: qs) from rfl] at hc
      rcases List.mem_append.mp hc with h1 | h2
      · rcases List.mem_append.mp h1 with h3 | h4
        · exact (goodQChar_facts c (hpk c h3)).1
        · rcases List.mem_cons.mp h4 with rfl | h5
          · decide
          · exact (goodQChar_facts c (hpv c h5)).1
      · rcases List.mem_cons.mp h2 with rfl | h3
        · decide
        · exact ih (fun x hx => hl x (List.mem_cons_of_mem p hx)) c h3

theorem normSteps_fields (u : URLRec) (hu1 : stripDefaultPortStep u = u) :
    (normSteps u).scheme = u.scheme ∧ (normSteps u).host = u.host ∧
      (normSteps u).port = u.port ∧ (normSteps u).frag = none ∧
      (normSteps u).query =
        (if (sortPairs (keptPairs { u with frag := none })).isEmpty then none
          else some (encList queryEncSet
            (joinPairs (sortPairs (keptPairs { u with frag := none }))))) := by
  simp only [normSteps, hu1]
  exact ⟨dropSlash_scheme _, dropSlash_host _, dropSlash_port _,
    dropSlash_frag _, dropSlash_query _⟩

theorem normSteps_path_props (u : URLRec) (hu1 : stripDefaultPortStep u = u)
    (h1 : u.path ≠ []) (h2 : u.path.head? = some '/')
    (h3 : ∀ c ∈ u.path, pathEncSet c = false) :
    (normSteps u).path ≠ [] ∧ (normSteps u).path.head? = some '/' ∧
      ∀ c ∈ (normSteps u).path, pathEncSet c = false := by
  simp only [normSteps, hu1]
  exact dropSlash_path_props _ h1 h2 h3

theorem normSteps_props (u : URLRec) (hc : CanonProps u)
    (hu1 : stripDefaultPortStep u = u)
    (hall : ∀ p ∈ keptPairs { u with frag := none }, goodPair p = true) :
    CanonProps (normSteps u) := by
  obtain ⟨hs, hh, hpo, ⟨hp1, hp2, hp3⟩, hq⟩ := hc
  obtain ⟨hw1, hw2, hw3, hw4, hw5⟩ := normSteps_fields u hu1
  have hsortedgood : ∀ p ∈ sortPairs (keptPairs { u with frag := none }),
      goodPair p = true :=
    fun p hp => hall p ((mem_sortPairs _ p).mp hp)
  refine ⟨by rw [hw1]; exact hs, by rw [hw2]; exact hh,
    by rw [hw3, hw1]; exact hpo, normSteps_path_props u hu1 hp1 hp2 hp3, ?_⟩
  intro q hq2
  rw [hw5] at hq2
  by_cases hb : (sortPairs (keptPairs { u with frag := none })).isEmpty = true
  · rw [if_pos hb] at hq2
    cases hq2
  · rw [if_neg hb] at hq2
    have hqe : encList queryEncSet
        (joinPairs (sortPairs (keptPairs { u with frag := none }))) = q := by
      simpa using hq2
    rw [← hqe]
    exact encQuery_chars _ (joinPairs_chars _ hsortedgood)

theorem normSteps_id_of (w : URLRec)
    (hpo : ∀ n, w.port = some n → isDefaultPort w.scheme n = false)
    (hf : w.frag = none)
    (hq : (if (sortPairs (keptPairs w)).isEmpty then none
        else some (encList queryEncSet (joinPairs (sortPairs (keptPairs w))))) =
      w.query)
    (hpath : w.path = (['/']) ∨ ¬ (w.path.getLast? = some '/')) :
    normSteps w = w := by
  have hstrip := stripDefaultPort_eq_self w hpo
  have hfrag : ({ w with frag := none }) = w := by rw [← hf]
  have hdrop : dropSlashStep w = w := by
    rw [dropSlashStep]
    apply if_neg
    rintro ⟨hne, hlast⟩
    rcases hpath with hp | hp
    · exact hne hp
    · exact hp hlast
  simp only [normSteps, hstrip, hfrag, hq]
  exact hdrop

theorem normSteps_fixpoint (u : URLRec) (hc : CanonProps u)
    (hu1 : stripDefaultPortStep u = u)
    (hall : ∀ p ∈ keptPairs { u with frag := none }, goodPair p = true)
    (hpathg : (normSteps u).path = (['/']) ∨
      ¬ ((normSteps u).path.getLast? = some '/')) :
    normSteps (normSteps u) = normSteps u := by
  obtain ⟨hw1, hw2, hw3, hw4, hw5⟩ := normSteps_fields u hu1
  have hprops := normSteps_props u hc hu1 hall
  apply normSteps_id_of
  · exact fun n hn => (hprops.2.2.1 n hn).2
  · exact hw4
  · by_cases hb : (sortPairs (keptPairs { u with frag := none })).isEmpty = true
    · have hwqnone : (normSteps u).query = none := by rw [hw5, if_pos hb]
      have hkeptw : keptPairs (normSteps u) = [] := by
        rw [keptPairs, hwqnone]
        rfl
      rw [hkeptw, hwqnone]
      rfl
    · have hwqsome : (normSteps u).query = some (encList queryEncSet
          (joinPairs (sortPairs (keptPairs { u with frag := none })))) := by
        rw [hw5, if_neg hb]
      have hsortedgood : ∀ p ∈ sortPairs (keptPairs { u with frag := none }),
          goodPair p = true :=
        fun p hp => hall p ((mem_sortPairs _ p).mp hp)
      have hkeptw : keptPairs (normSteps u) =
          sortPairs (keptPairs { u with frag := none }) := by
        rw [keptPairs, hwqsome]
        rw [show (some (encList queryEncSet (joinPairs (sortPairs
            (keptPairs { u with frag := none }))))).getD [] =
          encList queryEncSet (joinPairs (sortPairs
            (keptPairs { u with frag := none }))) from rfl]
        rw [parsePairs_enc_join _ hsortedgood]
        apply List.filter_eq_self.mpr
        intro a ha
        have haS := (mem_sortPairs _ a).mp ha
        rw [keptPairs] at haS
        exact (List.mem_filter.mp haS).2
      rw [hkeptw, sortPairs_eq_self _ (sortPairs_pairwise _), hwqsome, if_neg hb]
  · exact hpathg

theorem not_ws_of_ge (c : Char) (h : 0x21 ≤ c.toNat) : isWsChar c = false := by
  rw [isWsChar]
  simp only [decide_eq_false_iff_not]
  push_neg
  have e1 : (' ' : Char).toNat = 32 := rfl
  have e2 : ('\t' : Char).toNat = 9 := rfl
  have e3 : ('\n' : Char).toNat = 10 := rfl
  have e4 : ('\r' : Char).toNat = 13 := rfl
  refine ⟨(char_ne_iff_toNat c ' ').mpr (by omega),
    (char_ne_iff_toNat c '\t').mpr (by omega),
    (char_ne_iff_toNat c '\n').mpr (by omega),
    (char_ne_iff_toNat c '\r').mpr (by omega), by omega, by omega⟩

theorem serialize_hasHttp (w : URLRec)
    (hs : w.scheme = ("https".data) ∨ w.scheme = ("http".data)) :
    hasHttpScheme (serializeURL w) = true := by
  rcases hs with hsv | hsv
  · have he : serializeURL w = ("https://".data) ++
        (w.host ++ (portStr w.port ++ (w.path ++
          (queryStr w.query ++ fragStr w.frag)))) := by
      rw [serializeURL, hsv,
        show ("https".data) ++ ':' :: '/' :: '/' :: w.host =
          ("https://".data) ++ w.host from rfl]
      simp [List.append_assoc]
    rw [hasHttpScheme]
    apply decide_eq_true
    right
    rw [he]
    exact hasPrefixCI_self_append _ _ (by decide)
  · have he : serializeURL w = ("http://".data) ++
        (w.host ++ (portStr w.port ++ (w.path ++
          (queryStr w.query ++ fragStr w.frag)))) := by
      rw [serializeURL, hsv,
        show ("http".data) ++ ':' :: '/' :: '/' :: w.host =
          ("http://".data) ++ w.host from rfl]
      simp [List.append_assoc]
    rw [hasHttpScheme]
    apply decide_eq_true
    left
    rw [he]
    exact hasPrefixCI_self_append _ _ (by decide)

/-- **C9.**  The canonicalizer is idempotent on every input accepted by
`idemGuard`: the parse succeeds, every surviving decoded query parameter is
round-trip safe (byte-sized characters, none of `&`, `=`, `+`, `%`), and
the canonical path does not end in a non-root slash.  On such inputs a
second `normalizeUrl` pass returns the first output unchanged.  (The
unrestricted idempotence of the claim is refuted by
`canonicalize_not_idempotent`.) -/
theorem canonicalize_idempotent_guarded (s c : List Char)
    (hg : idemGuard s = true)
    (h : normalizeUrl (JsValue.strV s) = some c) :
    normalizeUrl (JsValue.strV c) = some c := by
  simp only [normalizeUrl] at h
  by_cases hse : s.isEmpty = true
  · rw [if_pos hse] at h
    cases h
  rw [if_neg hse] at h
  simp only [normalizeBody] at h
  simp only [idemGuard] at hg
  cases hpu : parseURL (if hasHttpScheme (nfcModel (jsTrim s)) = true
      then nfcModel (jsTrim s) else ("https://".data) ++ nfcModel (jsTrim s)) with
  | none =>
    rw [hpu] at hg
    cases hg
  | some u =>
    rw [hpu] at h hg
    have hc_eq : serializeURL (normSteps u) = c := by
      have h2 : (Except.ok (serializeURL (normSteps u)) :
          Except Unit (List Char)).toOption = some c := h
      simpa [Except.toOption] using h2
    simp only [decide_eq_true_eq] at hg
    obtain ⟨hall0, hpathg⟩ := hg
    have hcan := parseURL_props _ u hpu
    have hu1 : stripDefaultPortStep u = u :=
      stripDefaultPort_eq_self u (fun n hn => (hcan.2.2.1 n hn).2)
    rw [hu1] at hall0
    have hall : ∀ p ∈ keptPairs { u with frag := none }, goodPair p = true :=
      List.all_eq_true.mp hall0
    have hpropsW := normSteps_props u hcan hu1 hall
    obtain ⟨hfS, hfH, hfP, hfF, hfQ⟩ := normSteps_fields u hu1
    have hrt : parseURL (serializeURL (normSteps u)) = some (normSteps u) :=
      parse_serialize _ hpropsW hfF
    have hfix : normSteps (normSteps u) = normSteps u :=
      normSteps_fixpoint u hcan hu1 hall hpathg
    have hbounds := serialize_ascii _ hpropsW hfF
    have hhttp : hasHttpScheme c = true := by
      rw [← hc_eq]
      exact serialize_hasHttp _ hpropsW.1
    have htrim : jsTrim c = c := by
      apply jsTrim_eq_self
      intro x hx
      apply not_ws_of_ge
      rw [← hc_eq] at hx
      exact (hbounds x hx).1
    have hcne : c.isEmpty = false := by
      cases hce : c.isEmpty
      · rfl
      · exfalso
        have hcnil : c = [] := by simpa using hce
        rw [hcnil] at hhttp
        exact absurd hhttp (by decide)
    have hrtc : parseURL c = some (normSteps u) := by
      rw [← hc_eq]
      exact hrt
    simp only [normalizeUrl]
    rw [if_neg (by rw [hcne]; simp)]
    simp only [normalizeBody, nfcModel]
    rw [htrim, if_pos hhttp, hrtc]
    show some (serializeURL (normSteps (normSteps u))) = some c
    rw [hfix, hc_eq]

/-- Witness: the guarded idempotence theorem applied at a concrete sorted
query input. -/
theorem canonicalize_idempotent_guarded_witness :
    idemGuard ("https://x.test/?b=2&a=1#frag".data) = true ∧
      normalizeUrl (JsValue.strV ("https://x.test/?b=2&a=1#frag".data)) =
        some ("https://x.test/?a=1&b=2".data) ∧
      normalizeUrl (JsValue.strV ("https://x.test/?a=1&b=2".data)) =
        some ("https://x.test/?a=1&b=2".data) :=
  ⟨by decide, by decide,
    canonicalize_idempotent_guarded ("https://x.test/?b=2&a=1#frag".data)
      ("https://x.test/?a=1&b=2".data) (by decide) (by decide)⟩
